import Mathlib

/-! meshsearch: crawl state, scheduling and content extraction

A shallow embedding of `pkg/scraper/scraper.go`.

* A Go `string` is a sequence of bytes (`GoString`); it need not be valid UTF-8.
* A Go `int64` is an `Int` together with the wrap-around `wrapInt64` at every
  arithmetic operation of the source.
* A Go `map[string]T` is an association list with unique keys (`AList`). The two
  maps of the store are `none` when they are nil maps, as they are after `Load` of a
  save file that has `null` or nothing for them: reading a nil map finds no entry,
  writing to it panics. The pointers the maps hold are not nil and the `Links` of a
  `Page` are allocated: a handler reaches a `Page` only after the visit-start
  handler has stored it.
* `time.Now().Unix()` is a clock reading passed in as an argument.
* A handler that panics (a nil pointer, a nil map) returns `none`.
* The fetch engine (colly) is a parameter. `Request.Visit` keeps the `Context` of the
  request for the request it makes and, the collector being synchronous, returns
  when that visit is complete.
-/

namespace Meshsearch

/-! ## Strings -/

/-- One byte of a Go string. -/
abbrev Byte := Fin 256

/-- A Go string: a sequence of bytes. -/
abbrev GoString := List Byte

/-- The encoding `utf8.AppendRune` gives a rune. -/
def encodeRune (r : Nat) : GoString :=
  if r ≤ 0x7F then [Fin.ofNat r]
  else if r ≤ 0x7FF then [Fin.ofNat (0xC0 + r / 64), Fin.ofNat (0x80 + r % 64)]
  else if 0x10FFFF < r ∨ (0xD800 ≤ r ∧ r ≤ 0xDFFF) then [0xEF, 0xBF, 0xBD]
  else if r ≤ 0xFFFF then
    [Fin.ofNat (0xE0 + r / 4096), Fin.ofNat (0x80 + r / 64 % 64), Fin.ofNat (0x80 + r % 64)]
  else
    [Fin.ofNat (0xF0 + r / 262144), Fin.ofNat (0x80 + r / 4096 % 64),
      Fin.ofNat (0x80 + r / 64 % 64), Fin.ofNat (0x80 + r % 64)]

/-- The bytes of a string literal of the source. -/
def lit (s : String) : GoString :=
  s.data.flatMap (fun c => encodeRune c.toNat)

/-! ## Machine integers -/

/-- The value an `int64` holds after an arithmetic result `x`. -/
def wrapInt64 (x : Int) : Int :=
  (x + 9223372036854775808) % 18446744073709551616 - 9223372036854775808

/-- The values of an `int64`. -/
def IsInt64 (x : Int) : Prop :=
  -9223372036854775808 ≤ x ∧ x ≤ 9223372036854775807

/-! ## Data model -/

/-- A Go map with string keys. -/
abbrev GoMap (V : Type) := AList (fun _ : GoString => V)

structure Page where
  URL : GoString
  Summary : GoString
  Title : GoString
  Links : GoMap GoString
  Time : Int

structure SeedSite where
  Site : GoString
  LastCheck : Int
deriving DecidableEq

structure ScraperConfig where
  SaveFile : GoString
  Maxage : Int
  Verbose : Bool
  Debug : Bool
  UserAgent : GoString
  MaxDepth : Int
  URLFilters : List GoString
  Seeds : List GoString

structure ScraperData where
  Pages : Option (GoMap Page)
  Watchlist : Option (GoMap SeedSite)

/-- The Page `Pages[url]` points to; `none` for a nil pointer: the map has no such
key, or it is a nil map. -/
def ScraperData.page (d : ScraperData) (url : GoString) : Option Page :=
  match d.Pages with
  | none => none
  | some m => m.lookup url

/-- The entry `Watchlist[seed]` points to; `none` for a nil pointer. -/
def ScraperData.seed (d : ScraperData) (seed : GoString) : Option SeedSite :=
  match d.Watchlist with
  | none => none
  | some m => m.lookup seed

/-- The store after a write through the pointer `Pages[url]`, which is not nil. -/
def ScraperData.setPage (d : ScraperData) (url : GoString) (p : Page) : ScraperData :=
  match d.Pages with
  | none => d
  | some m => { d with Pages := some (m.insert url p) }

/-- The scraper; `R` is the type of a compiled regular expression. -/
structure Scraper (R : Type) where
  config : ScraperConfig
  data : ScraperData
  urlFilters : List R

/-- How an operation that may panic ends, with the state it leaves. -/
inductive Outcome (σ : Type) where
  | done (s : σ)
  | fatal (s : σ)

/-- Whether the operation panicked. -/
def Outcome.panicked {σ : Type} : Outcome σ → Bool
  | Outcome.done _ => false
  | Outcome.fatal _ => true

/-- The state the operation leaves. -/
def Outcome.state {σ : Type} : Outcome σ → σ
  | Outcome.done s => s
  | Outcome.fatal s => s

/-! ## Configuration, filters and seeds -/

/-- The `NewScraper` constructor. -/
def NewScraper {R : Type} (config : ScraperConfig) : Scraper R :=
  let c1 := if config.Maxage = 0 then { config with Maxage := 3600 } else config
  let c2 := if c1.UserAgent = [] then
    { c1 with UserAgent := lit "Mozilla/5.0 (Windows NT 10.0; Win64; x64) AppleWebKit/537.36 (KHTML, like Gecko) Chrome/79.0.3945.88 Safari/537.36" }
    else c1
  let c3 := if c2.MaxDepth = 0 then { c2 with MaxDepth := 7 } else c2
  { config := c3, data := { Pages := some ∅, Watchlist := some ∅ }, urlFilters := [] }

/-- The loop of `reconsileFilters`: `f = append(f, regexp.MustCompile(s))` for each
pattern; `none` when `MustCompile` panics. -/
def compileAll {R : Type} (compile : GoString → Option R) : List GoString → List R → Option (List R)
  | [], f => some f
  | s :: rest, f =>
    match compile s with
    | some r => compileAll compile rest (f ++ [r])
    | none => none

/-- The method `reconsileFilters`; `compile` is `regexp.Compile`. -/
def reconsileFilters {R : Type} (compile : GoString → Option R) (i : Scraper R) :
    Outcome (Scraper R) :=
  match compileAll compile i.config.URLFilters [] with
  | some f => Outcome.done { i with urlFilters := f }
  | none => Outcome.fatal i

/-- The loop of `reconsileSeeds` over the configured seeds; `none` when the
assignment `i.data.Watchlist[s] = ...` panics, the Watchlist being a nil map. -/
def addSeeds : List GoString → Option (GoMap SeedSite) → Option (Option (GoMap SeedSite))
  | [], w => some w
  | _ :: _, none => none
  | s :: rest, some m =>
    match m.lookup s with
    | some _ => addSeeds rest (some m)
    | none => addSeeds rest (some (m.insert s { Site := s, LastCheck := 0 }))

/-- The method `reconsileSeeds`. -/
def reconsileSeeds {R : Type} (i : Scraper R) : Outcome (Scraper R) :=
  match addSeeds i.config.Seeds i.data.Watchlist with
  | some w => Outcome.done { i with data := { i.data with Watchlist := w } }
  | none => Outcome.fatal i

/-- The method `UpdateConfig`. -/
def UpdateConfig {R : Type} (i : Scraper R) (c : ScraperConfig) : Scraper R :=
  { i with config := c }

/-! ## The watchlist pass of `Scrape` -/

/-- The body of the loop of `Scrape` for one watchlist entry: `t` is the clock
reading of the test, `t2` the one taken after the visit. The result is the entry
and the sites visited. -/
def scrapeSeed (maxage : Int) (s : SeedSite) (t t2 : Int) : SeedSite × List GoString :=
  if wrapInt64 (s.LastCheck + maxage) < t then
    ({ s with LastCheck := t2 }, [s.Site])
  else
    (s, [])

/-- The loop of `Scrape` over the watchlist; `clock k` gives the two clock readings
taken while the entry of key `k` is handled. The result is the watchlist and the
visits dispatched, each with the key of its entry. -/
def scrapeWatchlist (maxage : Int) (clock : GoString → Int × Int) (w : GoMap SeedSite) :
    GoMap SeedSite × List (GoString × GoString) :=
  w.entries.foldl
    (fun acc e =>
      let r := scrapeSeed maxage e.2 (clock e.1).1 (clock e.1).2
      (acc.1.replace e.1 r.1, acc.2 ++ r.2.map (fun site => (e.1, site))))
    (w, [])

/-- The method `Scrape`, up to the visits it dispatches; a nil Watchlist has no
entry to range over. -/
def Scrape {R : Type} (compile : GoString → Option R) (clock : GoString → Int × Int)
    (i : Scraper R) : Outcome (Scraper R × List (GoString × GoString)) :=
  match reconsileFilters compile i with
  | Outcome.fatal s => Outcome.fatal (s, [])
  | Outcome.done s1 =>
    match reconsileSeeds s1 with
    | Outcome.fatal s => Outcome.fatal (s, [])
    | Outcome.done s2 =>
      match s2.data.Watchlist with
      | none => Outcome.done (s2, [])
      | some w =>
        let r := scrapeWatchlist s2.config.Maxage clock w
        let d : ScraperData := { Pages := s2.data.Pages, Watchlist := some r.1 }
        Outcome.done ({ s2 with data := d }, r.2)

/-! ## Visit start -/

/-- The colly `Context` of a request: the value stored under the key "url". A
request made by `e.Request.Visit` has the `Context` of the request it comes from. -/
structure Context where
  url : GoString

/-- The `OnRequest` handler: `url` is `r.URL.String()`, `now` the clock reading. It
puts `url` in the `Context` and stores a fresh Page; `none` when `Pages` is a nil
map and the assignment panics. -/
def onRequest (url : GoString) (now : Int) (d : ScraperData) : Option (Context × ScraperData) :=
  match d.Pages with
  | none => none
  | some m =>
    let p : Page := { URL := url, Summary := [], Title := [], Links := ∅, Time := now }
    some ({ url := url }, { d with Pages := some (m.insert url p) })

/-! ## UTF-8 -/

/-- The rune `utf8.RuneError`. -/
def RuneError : Nat := 0xFFFD

/-- The rest of `utf8.DecodeRuneInString` for a first byte `s0` that announces two bytes. -/
def decodeRune2 (s0 : Nat) : GoString → Nat × Nat
  | s1 :: _ =>
    if 0x80 ≤ s1.val ∧ s1.val ≤ 0xBF then (s0 % 32 * 64 + s1.val % 64, 2)
    else (RuneError, 1)
  | [] => (RuneError, 1)

/-- The rest of `utf8.DecodeRuneInString` for a first byte that announces three bytes;
the second byte must lie between `lo` and `hi`. -/
def decodeRune3 (s0 lo hi : Nat) : GoString → Nat × Nat
  | s1 :: s2 :: _ =>
    if lo ≤ s1.val ∧ s1.val ≤ hi then
      if 0x80 ≤ s2.val ∧ s2.val ≤ 0xBF then
        (s0 % 16 * 4096 + s1.val % 64 * 64 + s2.val % 64, 3)
      else (RuneError, 1)
    else (RuneError, 1)
  | _ => (RuneError, 1)

/-- The rest of `utf8.DecodeRuneInString` for a first byte that announces four bytes;
the second byte must lie between `lo` and `hi`. -/
def decodeRune4 (s0 lo hi : Nat) : GoString → Nat × Nat
  | s1 :: s2 :: s3 :: _ =>
    if lo ≤ s1.val ∧ s1.val ≤ hi then
      if 0x80 ≤ s2.val ∧ s2.val ≤ 0xBF then
        if 0x80 ≤ s3.val ∧ s3.val ≤ 0xBF then
          (s0 % 8 * 262144 + s1.val % 64 * 4096 + s2.val % 64 * 64 + s3.val % 64, 4)
        else (RuneError, 1)
      else (RuneError, 1)
    else (RuneError, 1)
  | _ => (RuneError, 1)

/-- The function `utf8.DecodeRuneInString`: the first rune of a string and its width in
bytes; `(RuneError, 1)` for a byte that starts no valid encoding. -/
def decodeRune : GoString → Nat × Nat
  | [] => (RuneError, 0)
  | s0 :: rest =>
    if s0.val < 0x80 then (s0.val, 1)
    else if s0.val < 0xC2 then (RuneError, 1)
    else if s0.val < 0xE0 then decodeRune2 s0.val rest
    else if s0.val < 0xF0 then
      decodeRune3 s0.val (if s0.val = 0xE0 then 0xA0 else 0x80)
        (if s0.val = 0xED then 0x9F else 0xBF) rest
    else if s0.val < 0xF5 then
      decodeRune4 s0.val (if s0.val = 0xF0 then 0x90 else 0x80)
        (if s0.val = 0xF4 then 0x8F else 0xBF) rest
    else (RuneError, 1)

/-- The function `utf8.RuneStart`: the byte is no continuation byte. -/
def runeStart (b : Byte) : Bool :=
  decide (b.val / 64 ≠ 2)

/-- The rune at the end of the bytes `k`, ..., `1` from the end, when it fills them. -/
def lastRuneOf (bytes : GoString) : Nat × Nat :=
  if (decodeRune bytes).2 = bytes.length then decodeRune bytes else (RuneError, 1)

/-- The function `utf8.DecodeLastRuneInString`, on the reversed string: the search
for the start of the last rune looks at most `utf8.UTFMax = 4` bytes back. -/
def decodeLastRuneRev : GoString → Nat × Nat
  | [] => (RuneError, 0)
  | b1 :: before =>
    if b1.val < 0x80 then (b1.val, 1)
    else
      match before with
      | [] => (RuneError, 1)
      | b2 :: before2 =>
        if runeStart b2 then lastRuneOf [b2, b1]
        else
          match before2 with
          | [] => (RuneError, 1)
          | b3 :: before3 =>
            if runeStart b3 then lastRuneOf [b3, b2, b1]
            else
              match before3 with
              | [] => (RuneError, 1)
              | b4 :: _ =>
                if runeStart b4 then lastRuneOf [b4, b3, b2, b1]
                else (RuneError, 1)

/-- The function `utf8.DecodeLastRuneInString`. -/
def decodeLastRune (s : GoString) : Nat × Nat :=
  decodeLastRuneRev s.reverse

/-- The runes of a string as `for _, r := range s` yields them. -/
def runesAux : Nat → GoString → List Nat
  | 0, _ => []
  | _ + 1, [] => []
  | n + 1, b :: rest =>
    (decodeRune (b :: rest)).1 :: runesAux n (rest.drop ((decodeRune (b :: rest)).2 - 1))

/-- The runes of a string. -/
def runes (s : GoString) : List Nat :=
  runesAux s.length s

/-- The function `utf8.RuneCountInString`. -/
def runeCount (s : GoString) : Nat :=
  (runes s).length

/-! ## Text -/

/-- The function `unicode.IsSpace`. -/
def isSpace (r : Nat) : Bool :=
  if r ≤ 0xFF then
    decide (r = 0x09 ∨ r = 0x0A ∨ r = 0x0B ∨ r = 0x0C ∨ r = 0x0D ∨ r = 0x20 ∨ r = 0x85 ∨ r = 0xA0)
  else
    decide (r = 0x1680 ∨ (0x2000 ≤ r ∧ r ≤ 0x200A) ∨ r = 0x2028 ∨ r = 0x2029 ∨ r = 0x202F ∨
      r = 0x205F ∨ r = 0x3000)

/-- The class `\s` of the regular expressions of Go: `[\t\n\f\r ]`. -/
def isReSpace (r : Nat) : Bool :=
  decide (r = 0x09 ∨ r = 0x0A ∨ r = 0x0C ∨ r = 0x0D ∨ r = 0x20)

/-- The class `[A-Za-z]`. -/
def isAsciiLetter (r : Nat) : Bool :=
  decide ((0x41 ≤ r ∧ r ≤ 0x5A) ∨ (0x61 ≤ r ∧ r ≤ 0x7A))

/-- The predicate `hassomealpha`: the `MatchString` of the pattern `[A-Za-z]+`, which
matches when the string holds an ASCII letter. -/
def hassomealpha (s : GoString) : Bool :=
  s.any (fun b => isAsciiLetter b.val)

/-- The call `space.ReplaceAllString(s, " ")` for the pattern `\s+`: every maximal run
of bytes of the class `\s` becomes one space; `inRun` tells that the byte before
belonged to a run. -/
def spaceReplaceAux : Bool → GoString → GoString
  | _, [] => []
  | inRun, b :: rest =>
    if isReSpace b.val then
      if inRun then spaceReplaceAux true rest else 0x20 :: spaceReplaceAux true rest
    else b :: spaceReplaceAux false rest

/-- The call `space.ReplaceAllString(s, " ")`. -/
def spaceReplaceAll (s : GoString) : GoString :=
  spaceReplaceAux false s

/-- The function `strings.TrimLeftFunc(s, unicode.IsSpace)`. -/
def trimLeftAux : Nat → GoString → GoString
  | 0, s => s
  | _ + 1, [] => []
  | n + 1, b :: rest =>
    if isSpace (decodeRune (b :: rest)).1 then
      trimLeftAux n (rest.drop ((decodeRune (b :: rest)).2 - 1))
    else b :: rest

/-- The function `strings.TrimRightFunc(s, unicode.IsSpace)`, on the reversed string. -/
def trimRightRevAux : Nat → GoString → GoString
  | 0, s => s
  | _ + 1, [] => []
  | n + 1, b :: before =>
    if isSpace (decodeLastRuneRev (b :: before)).1 then
      trimRightRevAux n (before.drop ((decodeLastRuneRev (b :: before)).2 - 1))
    else b :: before

/-- The function `strings.TrimSpace`. -/
def trimSpace (s : GoString) : GoString :=
  let l := trimLeftAux s.length s
  (trimRightRevAux l.length l.reverse).reverse

/-- The expression `strings.TrimSpace(space.ReplaceAllString(text, " "))` of the handlers. -/
def normalize (text : GoString) : GoString :=
  trimSpace (spaceReplaceAll text)

/-- The function `strings.Contains`. -/
def stringsContains (s substr : GoString) : Bool :=
  s.tails.any (fun t => substr.isPrefixOf t)

/-- The function `strings.Split` for a separator of one byte. -/
def stringsSplit (s : GoString) (sep : Byte) : List GoString :=
  match s with
  | [] => [[]]
  | b :: rest =>
    if b = sep then [] :: stringsSplit rest sep
    else
      match stringsSplit rest sep with
      | [] => [[b]]
      | first :: more => (b :: first) :: more

/-! ## Content handlers

Every handler reads the URL of its Page from the `Context` of the response. -/

/-- The statement `i.data.Pages[url].Title = title`; `none` when no Page is stored at
`url`. -/
def setTitle (url title : GoString) (d : ScraperData) : Option ScraperData :=
  match d.page url with
  | none => none
  | some p => some (d.setPage url { p with Title := title })

/-- The statement `i.data.Pages[url].Summary = i.data.Pages[url].Summary + frag`. -/
def appendSummary (url frag : GoString) (d : ScraperData) : Option ScraperData :=
  match d.page url with
  | none => none
  | some p => some (d.setPage url { p with Summary := p.Summary ++ frag })

/-- The `OnHTML("title")` handler. -/
def onTitle (ctx : Context) (text : GoString) (d : ScraperData) : Option ScraperData :=
  setTitle ctx.url (normalize text) d

/-- The `OnHTML("meta")` handler. -/
def onMeta (ctx : Context) (property content : GoString) (d : ScraperData) :
    Option ScraperData :=
  if normalize property = lit "og:description" ∨ normalize property = lit "og:title" then
    appendSummary ctx.url (normalize content ++ lit " ") d
  else some d

/-- The `OnHTML("h1")` handler. -/
def onH1 (ctx : Context) (text : GoString) (d : ScraperData) : Option ScraperData :=
  appendSummary ctx.url (normalize text ++ lit " ") d

/-- The `OnHTML("h2")` handler. -/
def onH2 (ctx : Context) (text : GoString) (d : ScraperData) : Option ScraperData :=
  appendSummary ctx.url (normalize text ++ lit " ") d

/-- The `OnHTML("p")` handler. -/
def onP (ctx : Context) (text : GoString) (d : ScraperData) : Option ScraperData :=
  appendSummary ctx.url (normalize text ++ lit " ") d

/-- The `OnHTML("pre")` handler. -/
def onPre (ctx : Context) (text : GoString) (d : ScraperData) : Option ScraperData :=
  appendSummary ctx.url (normalize text ++ lit " ") d

/-- The `OnHTML("code")` handler. -/
def onCode (ctx : Context) (text : GoString) (d : ScraperData) : Option ScraperData :=
  appendSummary ctx.url (normalize text ++ lit " ") d

/-- The elements whose text goes to the Summary. -/
inductive TextTag where
  | h1 | h2 | p | pre | code
deriving DecidableEq

/-- The handler the fetch engine calls for an element of the given tag. -/
def onText (ctx : Context) (e : TextTag × GoString) (d : ScraperData) : Option ScraperData :=
  match e.1 with
  | TextTag.h1 => onH1 ctx e.2 d
  | TextTag.h2 => onH2 ctx e.2 d
  | TextTag.p => onP ctx e.2 d
  | TextTag.pre => onPre ctx e.2 d
  | TextTag.code => onCode ctx e.2 d

/-- The handlers called for a sequence of elements, in the order of delivery. -/
def onTexts (ctx : Context) : List (TextTag × GoString) → ScraperData → Option ScraperData
  | [], d => some d
  | e :: rest, d =>
    match onText ctx e d with
    | none => none
    | some d1 => onTexts ctx rest d1

/-- The test of the `OnHTML("a[href]")` handler on the resolved link and the
normalized text. -/
def acceptLink (link text : GoString) : Bool :=
  decide (link.length > 4) && stringsContains link (lit "http") && hassomealpha text &&
    decide (text.length > 3)

/-- The `OnHTML("a[href]")` handler up to its call of `e.Request.Visit`: `link` is
`e.Request.AbsoluteURL(e.Attr("href"))`, `rawText` is `e.Text`. The result is the store
and the URLs handed to `e.Request.Visit`. -/
def recordLink (ctx : Context) (rawText link : GoString) (d : ScraperData) :
    Option (ScraperData × List GoString) :=
  let text := normalize rawText
  if acceptLink link text then
    match d.page ctx.url with
    | none => none
    | some p =>
      let p1 : Page := { p with Links := p.Links.insert text link }
      let p2 : Page := { p1 with Summary := p1.Summary ++ text ++ lit ": " ++ link ++ lit " " }
      let linksplit := stringsSplit link 0x3F
      some (d.setPage ctx.url p2, if linksplit.length ≥ 1 then linksplit.take 1 else [])
  else some (d, [])

/-! ## A visit

The fetch engine calls `OnRequest`, then the handlers of the elements of the
document, in the order it delivers them. -/

/-- An element of a fetched document with a registered handler; an anchor comes with
its text and its resolved link. -/
inductive Element where
  | titleTag (text : GoString)
  | metaTag (property content : GoString)
  | textTag (tag : TextTag) (text : GoString)
  | anchorTag (text link : GoString)

/-- What the fetch engine does with a request it accepts: `url` is `r.URL.String()`,
`now` the clock reading of `OnRequest`, `elements` what it delivers (nothing when the
fetch fails). -/
structure Response where
  url : GoString
  now : Int
  elements : List Element

/-- The fetch engine: from the requests made before and the URL asked for, the
response, or `none` when it refuses the request (URL filters, a URL already visited)
and calls no handler. -/
abbrev Engine := List GoString → GoString → Option Response

/-- The state of a crawl: the store, the `Context` the requests share, and the
requests made so far. -/
structure Crawl where
  data : ScraperData
  ctx : Context
  requests : List GoString

/-- The calls `e.Request.Visit(u)` for the URLs of a list, one after the other. -/
def visitAll (visit : GoString → Crawl → Option Crawl) : List GoString → Crawl → Option Crawl
  | [], st => some st
  | u :: rest, st =>
    match visit u st with
    | none => none
    | some st1 => visitAll visit rest st1

/-- The `OnHTML("a[href]")` handler: the link is recorded on the Page the `Context`
names, then `e.Request.Visit` runs the visit of the link, which `visit` stands for. -/
def onAnchor (visit : GoString → Crawl → Option Crawl) (rawText link : GoString)
    (st : Crawl) : Option Crawl :=
  match recordLink st.ctx rawText link st.data with
  | none => none
  | some (d1, targets) => visitAll visit targets { st with data := d1 }

/-- The handler of an element. -/
def handle (visit : GoString → Crawl → Option Crawl) (e : Element) (st : Crawl) :
    Option Crawl :=
  match e with
  | Element.titleTag text =>
    match onTitle st.ctx text st.data with
    | none => none
    | some d1 => some { st with data := d1 }
  | Element.metaTag property content =>
    match onMeta st.ctx property content st.data with
    | none => none
    | some d1 => some { st with data := d1 }
  | Element.textTag tag text =>
    match onText st.ctx (tag, text) st.data with
    | none => none
    | some d1 => some { st with data := d1 }
  | Element.anchorTag text link => onAnchor visit text link st

/-- The handlers of the elements of a document, in the order of delivery. -/
def deliver (visit : GoString → Crawl → Option Crawl) : List Element → Crawl → Option Crawl
  | [], st => some st
  | e :: rest, st =>
    match handle visit e st with
    | none => none
    | some st1 => deliver visit rest st1

/-- A visit with `levels` levels of links left to follow (`MaxDepth` for a seed): the
engine is asked; if it accepts, `OnRequest` runs and the elements are handled, the
links of the document being visited with one level less. With no level left the
engine refuses the request. -/
def visit (engine : Engine) : Nat → GoString → Crawl → Option Crawl
  | 0, _, st => some st
  | levels + 1, target, st =>
    match engine st.requests target with
    | none => some { st with requests := st.requests ++ [target] }
    | some r =>
      match onRequest r.url r.now st.data with
      | none => none
      | some (ctx1, d1) =>
        deliver (fun u s => visit engine levels u s) r.elements
          { data := d1, ctx := ctx1, requests := st.requests ++ [target] }

/-! ## White space in a normalized text -/

/-- No white space character at either end of a sequence of runes. -/
def NoSpaceAtEnds (rs : List Nat) : Prop :=
  (∀ r, rs.head? = some r → isSpace r = false) ∧ (∀ r, rs.getLast? = some r → isSpace r = false)

/-- No two adjacent runes of the class `cls`, and every rune of the class is U+0020. -/
def SingleSpaces (cls : Nat → Bool) (rs : List Nat) : Prop :=
  List.Chain' (fun a b => ¬ (cls a = true ∧ cls b = true)) rs ∧
    ∀ r ∈ rs, cls r = true → r = 0x20

/-! ## Persistence: `encoding/json`

`json.Marshal` writes a struct as an object with its fields in declaration order, a
map as an object with its keys sorted, a string quoted and escaped, an `int64` in
decimal, without white space between the tokens. `unmarshalData` reads documents in
that layout as `json.Unmarshal` does; for any other document it returns `none`. -/

/-- The digit of `"0123456789abcdef"` at index `n`. -/
def hexDigit (n : Nat) : Byte :=
  if n < 10 then Fin.ofNat (0x30 + n) else Fin.ofNat (0x57 + n)

/-- What `appendString` writes for a byte below `utf8.RuneSelf`, with `escapeHTML` set
(releases of Go before 1.22 write `\u0008` and `\u000c` for backspace and form feed,
which `unescape` reads as the same bytes). -/
def quoteAscii (b : Byte) : GoString :=
  if b = 0x22 ∨ b = 0x5C then [0x5C, b]
  else if b = 0x08 then [0x5C, 0x62]
  else if b = 0x0C then [0x5C, 0x66]
  else if b = 0x0A then [0x5C, 0x6E]
  else if b = 0x0D then [0x5C, 0x72]
  else if b = 0x09 then [0x5C, 0x74]
  else if b.val < 0x20 ∨ b = 0x26 ∨ b = 0x3C ∨ b = 0x3E then
    [0x5C, 0x75, 0x30, 0x30, hexDigit (b.val / 16), hexDigit (b.val % 16)]
  else [b]

/-- The loop of `appendString`: an invalid byte becomes `\ufffd`, U+2028 and U+2029
are escaped, every other rune is copied. -/
def quoteAux : Nat → GoString → GoString
  | 0, _ => []
  | _ + 1, [] => []
  | n + 1, b :: rest =>
    if b.val < 0x80 then quoteAscii b ++ quoteAux n rest
    else if decodeRune (b :: rest) = (RuneError, 1) then
      [0x5C, 0x75, 0x66, 0x66, 0x66, 0x64] ++ quoteAux n rest
    else if (decodeRune (b :: rest)).1 = 0x2028 ∨ (decodeRune (b :: rest)).1 = 0x2029 then
      [0x5C, 0x75, 0x32, 0x30, 0x32, hexDigit ((decodeRune (b :: rest)).1 % 16)] ++
        quoteAux n (rest.drop ((decodeRune (b :: rest)).2 - 1))
    else
      (b :: rest).take (decodeRune (b :: rest)).2 ++
        quoteAux n (rest.drop ((decodeRune (b :: rest)).2 - 1))

/-- A string as `json.Marshal` writes it. -/
def marshalString (s : GoString) : GoString :=
  0x22 :: quoteAux s.length s ++ [0x22]

/-- The loop of `strconv.AppendInt` in base 10: the digits of `n` are put in front of
`acc`, the least significant first; the fuel bounds the number of digits. -/
def decimalAux : Nat → Nat → GoString → GoString
  | 0, _, acc => acc
  | fuel + 1, n, acc =>
    if n < 10 then Fin.ofNat (0x30 + n) :: acc
    else decimalAux fuel (n / 10) (Fin.ofNat (0x30 + n % 10) :: acc)

/-- The decimal digits of a natural number, as `strconv.AppendInt` writes them. -/
def decimal (n : Nat) : GoString :=
  decimalAux (n + 1) n []

/-- An `int64` as `json.Marshal` writes it. -/
def marshalInt (v : Int) : GoString :=
  if v < 0 then 0x2D :: decimal v.natAbs else decimal v.natAbs

/-- The order of Go on strings: bytewise lexicographic. -/
def stringLE : GoString → GoString → Bool
  | [], _ => true
  | _ :: _, [] => false
  | a :: s, b :: t => decide (a.val < b.val) || (decide (a = b) && stringLE s t)

/-- The entries of a map in the order `json.Marshal` writes them: sorted by key. -/
def sortedEntries {V : Type} (m : GoMap V) : List (Sigma (fun _ : GoString => V)) :=
  m.entries.insertionSort (fun a b => stringLE a.1 b.1 = true)

/-- The members of an object, separated by commas. -/
def marshalMembers {V : Type} (enc : V → GoString) :
    List (Sigma (fun _ : GoString => V)) → GoString
  | [] => []
  | [e] => marshalString e.1 ++ [0x3A] ++ enc e.2
  | e :: f :: rest =>
    marshalString e.1 ++ [0x3A] ++ enc e.2 ++ [0x2C] ++ marshalMembers enc (f :: rest)

/-- A map as `json.Marshal` writes it. -/
def marshalMap {V : Type} (enc : V → GoString) (m : GoMap V) : GoString :=
  [0x7B] ++ marshalMembers enc (sortedEntries m) ++ [0x7D]

/-- The name of a field, quoted, with the colon behind it. -/
def fieldName (name : String) : GoString :=
  [0x22] ++ lit name ++ [0x22, 0x3A]

/-- The opening brace of an object and the name of its first field. -/
def firstField (name : String) : GoString :=
  [0x7B] ++ fieldName name

/-- The comma before a further field and the name of the field. -/
def nextField (name : String) : GoString :=
  [0x2C] ++ fieldName name

/-- A `Page` as `json.Marshal` writes it. -/
def marshalPage (p : Page) : GoString :=
  firstField "URL" ++ marshalString p.URL ++
    nextField "Summary" ++ marshalString p.Summary ++
    nextField "Title" ++ marshalString p.Title ++
    nextField "Links" ++ marshalMap marshalString p.Links ++
    nextField "Time" ++ marshalInt p.Time ++ [0x7D]

/-- A `SeedSite` as `json.Marshal` writes it. -/
def marshalSeedSite (s : SeedSite) : GoString :=
  firstField "Site" ++ marshalString s.Site ++
    nextField "LastCheck" ++ marshalInt s.LastCheck ++ [0x7D]

/-- The literal `null`. -/
def nullLiteral : GoString :=
  [0x6E, 0x75, 0x6C, 0x6C]

/-- A map of the store as `json.Marshal` writes it: `null` for a nil map. -/
def marshalMapOrNull {V : Type} (enc : V → GoString) : Option (GoMap V) → GoString
  | none => nullLiteral
  | some m => marshalMap enc m

/-- The call `json.Marshal(i.data)`. -/
def marshalData (d : ScraperData) : GoString :=
  firstField "Pages" ++ marshalMapOrNull marshalPage d.Pages ++
    nextField "Watchlist" ++ marshalMapOrNull marshalSeedSite d.Watchlist ++ [0x7D]

/-- The value of a hexadecimal digit. -/
def hexValue (b : Byte) : Option Nat :=
  if 0x30 ≤ b.val ∧ b.val ≤ 0x39 then some (b.val - 0x30)
  else if 0x61 ≤ b.val ∧ b.val ≤ 0x66 then some (b.val - 0x57)
  else if 0x41 ≤ b.val ∧ b.val ≤ 0x46 then some (b.val - 0x37)
  else none

/-- The function `getu4` behind the bytes `\u`: the value of four hexadecimal digits. -/
def getu4 : GoString → Option (Nat × GoString)
  | a :: b :: c :: d :: rest =>
    match hexValue a, hexValue b, hexValue c, hexValue d with
    | some x, some y, some z, some w => some (x * 4096 + y * 256 + z * 16 + w, rest)
    | _, _, _, _ => none
  | _ => none

/-- The escape sequence behind a backslash, as `unquoteBytes` reads it: the bytes it
stands for and the input behind it. -/
def unescape : GoString → Option (GoString × GoString)
  | [] => none
  | e :: rest =>
    if e = 0x22 ∨ e = 0x5C ∨ e = 0x2F then some ([e], rest)
    else if e = 0x62 then some ([0x08], rest)
    else if e = 0x66 then some ([0x0C], rest)
    else if e = 0x6E then some ([0x0A], rest)
    else if e = 0x72 then some ([0x0D], rest)
    else if e = 0x74 then some ([0x09], rest)
    else if e = 0x75 then
      match getu4 rest with
      | none => none
      | some (rr, rest1) =>
        if 0xD800 ≤ rr ∧ rr < 0xE000 then
          match rest1 with
          | 0x5C :: 0x75 :: rest2 =>
            match getu4 rest2 with
            | some (rr1, rest3) =>
              if rr < 0xDC00 ∧ 0xDC00 ≤ rr1 ∧ rr1 < 0xE000 then
                some (encodeRune ((rr - 0xD800) * 1024 + (rr1 - 0xDC00) + 0x10000), rest3)
              else some (encodeRune RuneError, rest1)
            | none => some (encodeRune RuneError, rest1)
          | _ => some (encodeRune RuneError, rest1)
        else some (encodeRune rr, rest1)
    else none

/-- The string behind an opening quote, as the scanner and `unquoteBytes` read it: the
string and the input behind the closing quote. -/
def unquoteAux : Nat → GoString → Option (GoString × GoString)
  | 0, _ => none
  | _ + 1, [] => none
  | n + 1, b :: rest =>
    if b = 0x22 then some ([], rest)
    else if b = 0x5C then
      match unescape rest with
      | none => none
      | some (bytes, rest1) =>
        match unquoteAux n rest1 with
        | none => none
        | some (s, rest2) => some (bytes ++ s, rest2)
    else if b.val < 0x20 then none
    else if b.val < 0x80 then
      match unquoteAux n rest with
      | none => none
      | some (s, rest2) => some (b :: s, rest2)
    else
      match unquoteAux n (rest.drop ((decodeRune (b :: rest)).2 - 1)) with
      | none => none
      | some (s, rest2) => some (encodeRune (decodeRune (b :: rest)).1 ++ s, rest2)

/-- A string value: the opening quote, then the string. -/
def unmarshalString (input : GoString) : Option (GoString × GoString) :=
  match input with
  | 0x22 :: rest => unquoteAux rest.length rest
  | _ => none

/-- The bytes `lit` at the head of the input; the result is the input behind them. -/
def expect (bytes input : GoString) : Option GoString :=
  if bytes.isPrefixOf input then some (input.drop bytes.length) else none

/-- Whether the byte is a decimal digit. -/
def isDigit (b : Byte) : Bool :=
  decide (0x30 ≤ b.val ∧ b.val ≤ 0x39)

/-- The value of a sequence of decimal digits. -/
def digitsValue (ds : GoString) : Nat :=
  ds.foldl (fun acc d => acc * 10 + (d.val - 0x30)) 0

/-- A number read into an `int64`: an optional sign and digits without a leading zero,
not followed by a fraction or an exponent, of value within the `int64` range (else
`strconv.ParseInt` fails and `Unmarshal` returns an error). -/
def unmarshalInt (input : GoString) : Option (Int × GoString) :=
  let neg := input.head? = some 0x2D
  let body := if neg then input.drop 1 else input
  let ds := body.takeWhile isDigit
  let rest := body.dropWhile isDigit
  if ds = [] then none
  else if ds.head? = some 0x30 ∧ ds.length > 1 then none
  else if rest.head? = some 0x2E ∨ rest.head? = some 0x65 ∨ rest.head? = some 0x45 then none
  else
    let v : Int := if neg then -(digitsValue ds : Int) else (digitsValue ds : Int)
    if -9223372036854775808 ≤ v ∧ v ≤ 9223372036854775807 then some (v, rest) else none

/-- The members of an object read into a map: every member is decoded and stored
under its key, a later member replacing an earlier one of the same key. -/
def unmarshalMembers {V : Type} (dec : GoString → Option (V × GoString)) :
    Nat → GoString → GoMap V → Option (GoMap V × GoString)
  | 0, _, _ => none
  | n + 1, input, acc =>
    match unmarshalString input with
    | none => none
    | some (k, rest1) =>
      match expect [0x3A] rest1 with
      | none => none
      | some rest2 =>
        match dec rest2 with
        | none => none
        | some (v, rest3) =>
          match rest3 with
          | 0x2C :: rest4 => unmarshalMembers dec n rest4 (acc.insert k v)
          | 0x7D :: rest4 => some (acc.insert k v, rest4)
          | _ => none

/-- An object read into a map. -/
def unmarshalMap {V : Type} (dec : GoString → Option (V × GoString)) (input : GoString) :
    Option (GoMap V × GoString) :=
  match input with
  | 0x7B :: 0x7D :: rest => some (∅, rest)
  | 0x7B :: rest => unmarshalMembers dec rest.length rest ∅
  | _ => none

/-- An object read into a `Page`. -/
def unmarshalPage (input : GoString) : Option (Page × GoString) := do
  let r ← expect (firstField "URL") input
  let (url, r) ← unmarshalString r
  let r ← expect (nextField "Summary") r
  let (summary, r) ← unmarshalString r
  let r ← expect (nextField "Title") r
  let (title, r) ← unmarshalString r
  let r ← expect (nextField "Links") r
  let (links, r) ← unmarshalMap unmarshalString r
  let r ← expect (nextField "Time") r
  let (time, r) ← unmarshalInt r
  let r ← expect [0x7D] r
  some ({ URL := url, Summary := summary, Title := title, Links := links, Time := time }, r)

/-- An object read into a `SeedSite`. -/
def unmarshalSeedSite (input : GoString) : Option (SeedSite × GoString) := do
  let r ← expect (firstField "Site") input
  let (site, r) ← unmarshalString r
  let r ← expect (nextField "LastCheck") r
  let (lastCheck, r) ← unmarshalInt r
  let r ← expect [0x7D] r
  some ({ Site := site, LastCheck := lastCheck }, r)

/-- A value read into a map of the store: `null` leaves the nil map, an object is
read into a new map. -/
def unmarshalMapOrNull {V : Type} (dec : GoString → Option (V × GoString))
    (input : GoString) : Option (Option (GoMap V) × GoString) :=
  if nullLiteral.isPrefixOf input then some (none, input.drop nullLiteral.length)
  else
    match unmarshalMap dec input with
    | none => none
    | some (m, rest) => some (some m, rest)

/-- The call `json.Unmarshal(file, &data)` for a fresh `data`, on the document without
members and on a document in the layout of `json.Marshal`: the decoded store. The
result is `none` when `Unmarshal` returns an error, and for every other document,
about which this model says nothing. -/
def unmarshalData (file : GoString) : Option ScraperData :=
  if file = [0x7B, 0x7D] then some { Pages := none, Watchlist := none }
  else do
    let r ← expect (firstField "Pages") file
    let (pages, r) ← unmarshalMapOrNull unmarshalPage r
    let r ← expect (nextField "Watchlist") r
    let (watchlist, r) ← unmarshalMapOrNull unmarshalSeedSite r
    let r ← expect [0x7D] r
    if r = [] then some { Pages := pages, Watchlist := watchlist } else none

/-- The method `ToJSON`. -/
def ToJSON {R : Type} (i : Scraper R) : GoString :=
  marshalData i.data

/-- The method `Save`: the bytes written to the save file, if one is configured. -/
def Save {R : Type} (i : Scraper R) : Option GoString :=
  if i.config.SaveFile = [] then none else some (ToJSON i)

/-- The method `Load`. `file` is what `ioutil.ReadFile` returns, `none` for an error;
`unmarshal` is `json.Unmarshal` into a fresh `ScraperData`, `none` for an error. On an
error the scraper keeps its data, else it installs what was decoded. -/
def Load {R : Type} (unmarshal : GoString → Option ScraperData) (file : Option GoString)
    (i : Scraper R) : Scraper R :=
  if i.config.SaveFile = [] then i
  else
    match file with
    | none => i
    | some bytes =>
      match unmarshal bytes with
      | none => i
      | some d => { i with data := d }

/-- The function `utf8.ValidString`. -/
def validUTF8Aux : Nat → GoString → Bool
  | 0, _ => true
  | _ + 1, [] => true
  | n + 1, b :: rest =>
    if decodeRune (b :: rest) = (RuneError, 1) then false
    else validUTF8Aux n (rest.drop ((decodeRune (b :: rest)).2 - 1))

/-- The function `utf8.ValidString`. -/
def validUTF8 (s : GoString) : Bool :=
  validUTF8Aux s.length s

/-! ## What a snapshot preserves -/

/-- The strings of a `Page` are valid UTF-8 (and its `Time` is an `int64`). -/
def Page.Valid (p : Page) : Prop :=
  validUTF8 p.URL = true ∧ validUTF8 p.Summary = true ∧ validUTF8 p.Title = true ∧
    (∀ k v, p.Links.lookup k = some v → validUTF8 k = true ∧ validUTF8 v = true) ∧
    IsInt64 p.Time

/-- The string of a `SeedSite` is valid UTF-8 (and its `LastCheck` is an `int64`). -/
def SeedSite.Valid (s : SeedSite) : Prop :=
  validUTF8 s.Site = true ∧ IsInt64 s.LastCheck

/-- Every string of the store, the keys included, is valid UTF-8. -/
def ScraperData.Valid (d : ScraperData) : Prop :=
  (∀ k p, d.page k = some p → validUTF8 k = true ∧ p.Valid) ∧
    (∀ k s, d.seed k = some s → validUTF8 k = true ∧ s.Valid)

/-- Two Pages equal field by field, the Links key by key. -/
def Page.Same (p q : Page) : Prop :=
  p.URL = q.URL ∧ p.Summary = q.Summary ∧ p.Title = q.Title ∧ p.Time = q.Time ∧
    ∀ k, p.Links.lookup k = q.Links.lookup k

/-- Two stores equal key by key and field by field, a nil map being equal to a nil
map only. -/
def ScraperData.Same (d e : ScraperData) : Prop :=
  (∀ k, match d.page k, e.page k with
    | some p, some q => p.Same q
    | none, none => True
    | _, _ => False) ∧
  (∀ k, d.seed k = e.seed k) ∧
  d.Pages.isSome = e.Pages.isSome ∧ d.Watchlist.isSome = e.Watchlist.isSome

/-- A map rebuilt as the decoder builds it: from the empty map, the entries stored in
the order of their keys, each value as the decoder returns it. -/
def rebuildMap {V : Type} (f : V → V) (m : GoMap V) : GoMap V :=
  (sortedEntries m).foldl (fun acc e => acc.insert e.1 (f e.2)) ∅

/-- A Page as the decoder returns it. -/
def rebuildPage (p : Page) : Page :=
  { p with Links := rebuildMap id p.Links }

/-! ## Example inputs -/

/-- The Page the visit-start handler stores for "https://example.com/". -/
def examplePage : Page :=
  { URL := lit "https://example.com/", Summary := [], Title := [], Links := ∅, Time := 1700000000 }

/-- A store right after the visit of "https://example.com/" has started. -/
def exampleStore : ScraperData :=
  { Pages := some ((∅ : GoMap Page).insert (lit "https://example.com/") examplePage),
    Watchlist := some ∅ }

/-- The `Context` of the visit of "https://example.com/". -/
def exampleContext : Context :=
  { url := lit "https://example.com/" }

/-- A crawled Page with text outside ASCII and characters the encoder escapes. -/
def exampleCrawled : Page :=
  { URL := lit "https://example.com/", Summary := lit "Café <b> & \"thé\" Docs: https://example.com/page?x=1 ",
    Title := lit "Café – 日本",
    Links := (∅ : GoMap GoString).insert (lit "Docs") (lit "https://example.com/page?x=1"),
    Time := 1700000000 }

/-- A configuration with one seed. -/
def exampleConfig : ScraperConfig :=
  { SaveFile := lit "save.json", Maxage := 3600, Verbose := false, Debug := false,
    UserAgent := lit "x", MaxDepth := 7, URLFilters := [],
    Seeds := [lit "https://example.com/"] }

/-- A scraper whose store holds `exampleCrawled` and one seed. -/
def exampleScraper : Scraper Unit :=
  { config := exampleConfig,
    data := { Pages := some ((∅ : GoMap Page).insert (lit "https://example.com/") exampleCrawled),
              Watchlist := some ((∅ : GoMap SeedSite).insert (lit "https://example.com/")
                { Site := lit "https://example.com/", LastCheck := 1700000000 }) },
    urlFilters := [] }

/-- The scraper `NewScraper` makes for `exampleConfig`. -/
def exampleFresh : Scraper Unit :=
  NewScraper exampleConfig

/-- A fetch engine for a site of three documents: "http://s/" has two links, to
"http://s/one" and to "http://s/two", which have no element with a handler. -/
def exampleEngine : Engine :=
  fun _ target =>
    if target = lit "http://s/" then
      some { url := target, now := 1700000000,
             elements := [Element.anchorTag (lit "One page") (lit "http://s/one"),
                          Element.anchorTag (lit "Two page") (lit "http://s/two")] }
    else some { url := target, now := 1700000001, elements := [] }

/-- A save file with `null` for `Pages` and an empty object for `Watchlist`. -/
def exampleSaveFile : GoString :=
  firstField "Pages" ++ nullLiteral ++ nextField "Watchlist" ++ [0x7B, 0x7D, 0x7D]

/-! ## Theorems -/

/-! ### The staleness test -/

/-- When `LastCheck + Maxage` stays in the range of an `int64`, an entry whose
threshold has not elapsed is left alone by the loop body of `Scrape`. -/
theorem scrapeSeed_fresh_of_no_overflow (maxage t t2 : Int) (s : SeedSite)
    (hsum : IsInt64 (s.LastCheck + maxage)) (h : t - s.LastCheck ≤ maxage) :
    scrapeSeed maxage s t t2 = (s, []) := by
  unfold IsInt64 at hsum
  have hw : wrapInt64 (s.LastCheck + maxage) = s.LastCheck + maxage := by
    unfold wrapInt64
    omega
  unfold scrapeSeed
  rw [hw, if_neg (by omega)]

/-- C1 (evaluated on the code): with `Maxage = 9223372036854775807`, an entry last
checked at `1700000000` is visited again at `1700000060`, 60 seconds later, and its
`LastCheck` is overwritten: `LastCheck + Maxage` wraps around to a negative `int64`. -/
theorem scrapeWatchlist_overflow_dispatches :
    IsInt64 1700000000 ∧ IsInt64 9223372036854775807 ∧ IsInt64 1700000060 ∧
    (0 : Int) ≤ 9223372036854775807 ∧
    (1700000060 : Int) - 1700000000 ≤ 9223372036854775807 ∧
    scrapeSeed 9223372036854775807 { Site := lit "http://a", LastCheck := 1700000000 }
        1700000060 1700000061
      = ({ Site := lit "http://a", LastCheck := 1700000061 }, [lit "http://a"]) ∧
    (scrapeWatchlist 9223372036854775807 (fun _ => (1700000060, 1700000061))
        ((∅ : GoMap SeedSite).insert (lit "http://a")
          { Site := lit "http://a", LastCheck := 1700000000 })).1.lookup (lit "http://a")
      = some { Site := lit "http://a", LastCheck := 1700000061 } ∧
    (scrapeWatchlist 9223372036854775807 (fun _ => (1700000060, 1700000061))
        ((∅ : GoMap SeedSite).insert (lit "http://a")
          { Site := lit "http://a", LastCheck := 1700000000 })).2
      = [(lit "http://a", lit "http://a")] := by
  refine ⟨by unfold IsInt64; omega, by unfold IsInt64; omega, by unfold IsInt64; omega,
    by omega, by omega, by decide, by decide, by decide⟩


/-! ### The store -/

/-- A write through the pointer `Pages[url]` is read back. -/
theorem page_setPage (d : ScraperData) (url : GoString) (p q : Page)
    (hp : d.page url = some p) : (d.setPage url q).page url = some q := by
  unfold ScraperData.page ScraperData.setPage at *
  cases hm : d.Pages with
  | none => rw [hm] at hp; cases hp
  | some m => exact AList.lookup_insert _

/-- A write through the pointer `Pages[url]` leaves the Page of every other URL. -/
theorem page_setPage_ne (d : ScraperData) (url other : GoString) (q : Page)
    (hne : other ≠ url) : (d.setPage url q).page other = d.page other := by
  unfold ScraperData.page ScraperData.setPage
  cases hm : d.Pages with
  | none => simp only [hm]
  | some m => exact AList.lookup_insert_ne hne

/-- A write through the pointer `Pages[url]` leaves the Watchlist. -/
theorem watchlist_setPage (d : ScraperData) (url : GoString) (q : Page) :
    (d.setPage url q).Watchlist = d.Watchlist := by
  unfold ScraperData.setPage
  cases d.Pages <;> rfl

/-! ### Seeds -/

/-- What `addSeeds` leaves at each key of an allocated Watchlist: the entry that was
there, or a fresh entry for a configured seed that had none. -/
theorem addSeeds_allocated (seeds : List GoString) (m : GoMap SeedSite) :
    ∃ m1, addSeeds seeds (some m) = some (some m1) ∧
      ∀ k, m1.lookup k =
        match m.lookup k with
        | some v => some v
        | none => if k ∈ seeds then some { Site := k, LastCheck := 0 } else none := by
  induction seeds generalizing m with
  | nil =>
    refine ⟨m, rfl, ?_⟩
    intro k
    cases m.lookup k <;> simp
  | cons s rest ih =>
    unfold addSeeds
    cases hs : m.lookup s with
    | some v =>
      simp only
      obtain ⟨m1, h1, h2⟩ := ih m
      refine ⟨m1, h1, ?_⟩
      intro k
      rw [h2 k]
      cases hk : m.lookup k with
      | some v2 => rfl
      | none =>
        have hne : k ≠ s := by
          intro h
          rw [h, hs] at hk
          cases hk
        simp [hne]
    | none =>
      simp only
      obtain ⟨m1, h1, h2⟩ := ih (m.insert s { Site := s, LastCheck := 0 })
      refine ⟨m1, h1, ?_⟩
      intro k
      rw [h2 k]
      by_cases hks : k = s
      · subst hks
        rw [AList.lookup_insert, hs]
        simp
      · rw [AList.lookup_insert_ne hks]
        cases hk : m.lookup k <;> simp [hks]

/-- On a nil Watchlist `reconsileSeeds` panics at the first configured seed. -/
theorem reconsileSeeds_nil {R : Type} (i : Scraper R) (hw : i.data.Watchlist = none)
    (hs : i.config.Seeds ≠ []) : reconsileSeeds i = Outcome.fatal i := by
  unfold reconsileSeeds
  rw [hw]
  cases hseeds : i.config.Seeds with
  | nil => exact absurd hseeds hs
  | cons s rest => rfl

/-- On an allocated Watchlist, `UpdateConfig c` and `reconsileSeeds` leave a Watchlist
whose keys are the old keys and the seeds of `c`; a seed of `c` that was no key maps
to `SeedSite{Site = seed, LastCheck = 0}`; every old entry is kept as it was. -/
theorem reconsileSeeds_allocated {R : Type} (i : Scraper R) (c : ScraperConfig)
    (w : GoMap SeedSite) (hw : i.data.Watchlist = some w) :
    ∃ w1, reconsileSeeds (UpdateConfig i c) = Outcome.done
        { UpdateConfig i c with data := { i.data with Watchlist := some w1 } } ∧
      (∀ k, k ∈ w1 ↔ (k ∈ w ∨ k ∈ c.Seeds)) ∧
      (∀ s, s ∈ c.Seeds → s ∉ w → w1.lookup s = some { Site := s, LastCheck := 0 }) ∧
      (∀ k v, w.lookup k = some v → w1.lookup k = some v) := by
  obtain ⟨w1, h1, h2⟩ := addSeeds_allocated c.Seeds w
  refine ⟨w1, ?_, ?_, ?_, ?_⟩
  · unfold reconsileSeeds
    show (match addSeeds c.Seeds i.data.Watchlist with
      | some w => Outcome.done _
      | none => Outcome.fatal _) = _
    rw [hw, h1]
    rfl
  · intro k
    rw [← AList.lookup_isSome, ← AList.lookup_isSome, h2 k]
    cases hk : w.lookup k with
    | some v => simp
    | none => by_cases hm : k ∈ c.Seeds <;> simp [hm]
  · intro s hs hnot
    rw [h2 s, AList.lookup_eq_none.mpr hnot]
    simp [hs]
  · intro k v hk
    rw [h2 k, hk]

/-- C2 (evaluated on the code): after `Load` of the save file that holds the empty
object, the Watchlist is a nil map, and `UpdateConfig` with one seed followed by
`reconsileSeeds` panics at the assignment to the nil map instead of adding the seed. -/
theorem reconsileSeeds_panics_after_load :
    (Load unmarshalData (some [0x7B, 0x7D]) exampleFresh).data.Watchlist.isNone = true ∧
    exampleConfig.Seeds = [lit "https://example.com/"] ∧
    (reconsileSeeds (UpdateConfig (Load unmarshalData (some [0x7B, 0x7D]) exampleFresh)
      exampleConfig)).panicked = true ∧
    (reconsileSeeds (UpdateConfig (Load unmarshalData (some [0x7B, 0x7D]) exampleFresh)
      exampleConfig)).state.data.Watchlist.isNone = true := by
  refine ⟨by decide, rfl, by decide, by decide⟩

/-! ### Visit start -/

/-- On an allocated `Pages` map the visit-start handler for `url` at time `now` puts
`url` in the `Context` and stores at `url` a Page with that URL, empty Title and
Summary, no link and `Time = now`, whatever was stored there; the Page at every other
URL and the Watchlist are unchanged. -/
theorem onRequest_allocated (d : ScraperData) (m : GoMap Page) (hm : d.Pages = some m)
    (url : GoString) (now : Int) :
    ∃ d1, onRequest url now d = some ({ url := url }, d1) ∧
      d1.page url
        = some { URL := url, Summary := [], Title := [], Links := ∅, Time := now } ∧
      (∀ other, other ≠ url → d1.page other = d.page other) ∧
      d1.Watchlist = d.Watchlist := by
  unfold onRequest
  rw [hm]
  refine ⟨_, rfl, ?_, ?_, rfl⟩
  · exact AList.lookup_insert _
  · intro other hne
    unfold ScraperData.page
    rw [hm]
    exact AList.lookup_insert_ne hne

/-- On a nil `Pages` map the visit-start handler panics. -/
theorem onRequest_nil (d : ScraperData) (hm : d.Pages = none) (url : GoString) (now : Int) :
    onRequest url now d = none := by
  unfold onRequest
  rw [hm]

/-- C7 (evaluated on the code): after `Load` of a save file with `null` for `Pages`
and an empty Watchlist, `reconsileSeeds` adds the configured seed, and the visit-start
handler of the visit of that seed panics at the assignment to the nil `Pages` map
instead of storing a Page. -/
theorem onRequest_panics_after_load :
    (Load unmarshalData (some exampleSaveFile) exampleFresh).data.Pages.isNone = true ∧
    (reconsileSeeds (Load unmarshalData (some exampleSaveFile) exampleFresh)).panicked = false ∧
    ((reconsileSeeds (Load unmarshalData (some exampleSaveFile) exampleFresh)).state.data.seed
      (lit "https://example.com/")).isSome = true ∧
    (onRequest (lit "https://example.com/") 1700000000
      (reconsileSeeds (Load unmarshalData (some exampleSaveFile)
        exampleFresh)).state.data).isNone = true ∧
    (visit exampleEngine 7 (lit "https://example.com/")
      { data := (reconsileSeeds (Load unmarshalData (some exampleSaveFile)
          exampleFresh)).state.data,
        ctx := { url := [] }, requests := [] }).isNone = true := by
  refine ⟨by decide, by decide, by decide, by decide, by decide⟩
/-! ### Filters -/

/-- The loop of `reconsileFilters` returns the compiled patterns in order behind
what it was given, or stops at the first pattern that does not compile. -/
theorem compileAll_eq {R : Type} (compile : GoString → Option R) (ps : List GoString)
    (f : List R) :
    compileAll compile ps f =
      if ∀ p ∈ ps, (compile p).isSome = true then some (f ++ ps.filterMap compile) else none := by
  induction ps generalizing f with
  | nil => simp [compileAll]
  | cons s rest ih =>
    unfold compileAll
    cases hs : compile s with
    | none => simp [hs]
    | some r =>
      simp only
      rw [ih]
      simp [hs]

/-- C10: `reconsileFilters` is all-or-nothing. If every configured pattern compiles,
the filter set becomes the compiled patterns, one per pattern in configuration
order, and nothing else changes; if some pattern does not compile, the operation
is fatal and the state, the filter set included, is what it was. -/
theorem reconsileFilters_all_or_nothing {R : Type} (compile : GoString → Option R)
    (i : Scraper R) :
    ((∀ p ∈ i.config.URLFilters, (compile p).isSome = true) →
      ∃ f : List R, reconsileFilters compile i = Outcome.done { i with urlFilters := f } ∧
        f.map some = i.config.URLFilters.map compile) ∧
    ((∃ p ∈ i.config.URLFilters, compile p = none) →
      reconsileFilters compile i = Outcome.fatal i) := by
  constructor
  · intro h
    refine ⟨i.config.URLFilters.filterMap compile, ?_, ?_⟩
    · unfold reconsileFilters
      rw [compileAll_eq, if_pos h]
      simp
    · revert h
      generalize i.config.URLFilters = ps
      intro h
      induction ps with
      | nil => rfl
      | cons s rest ih =>
        have hs := h s (List.mem_cons_self _ _)
        obtain ⟨r, hr⟩ := Option.isSome_iff_exists.mp hs
        have := ih (fun p hp => h p (List.mem_cons_of_mem _ hp))
        simp [List.filterMap_cons, hr, this]
  · rintro ⟨p, hp, hnone⟩
    unfold reconsileFilters
    rw [compileAll_eq, if_neg]
    intro h
    have := h p hp
    rw [hnone] at this
    cases this

/-! ### Library functions -/

/-- The model of `strings.Contains` decides whether the substring occurs. -/
theorem stringsContains_iff (s substr : GoString) :
    stringsContains s substr = true ↔ substr <:+: s := by
  unfold stringsContains
  rw [List.any_eq_true, List.infix_iff_prefix_suffix]
  constructor
  · rintro ⟨t, ht, hp⟩
    exact ⟨t, List.isPrefixOf_iff_prefix.mp hp, (List.mem_tails _ _).mp ht⟩
  · rintro ⟨t, hp, ht⟩
    exact ⟨t, (List.mem_tails _ _).mpr ht, List.isPrefixOf_iff_prefix.mpr hp⟩

/-- The model of `hassomealpha` decides whether the string holds an ASCII letter. -/
theorem hassomealpha_iff (s : GoString) :
    hassomealpha s = true ↔
      ∃ b ∈ s, (0x41 ≤ b.val ∧ b.val ≤ 0x5A) ∨ (0x61 ≤ b.val ∧ b.val ≤ 0x7A) := by
  unfold hassomealpha isAsciiLetter
  simp [List.any_eq_true]

/-- The first element `strings.Split` returns is the part before the first separator. -/
theorem stringsSplit_take_one (s : GoString) (sep : Byte) :
    (stringsSplit s sep).take 1 = [s.takeWhile (fun b => decide (b ≠ sep))] := by
  induction s with
  | nil => rfl
  | cons b rest ih =>
    unfold stringsSplit
    by_cases hb : b = sep
    · simp [hb, List.takeWhile]
    · rw [if_neg hb]
      cases hsp : stringsSplit rest sep with
      | nil => rw [hsp] at ih; simp at ih
      | cons first more =>
        rw [hsp] at ih
        simp only [List.take_succ_cons, List.take_zero, List.cons.injEq, and_true] at ih
        simp [List.takeWhile, hb, ih]

/-- The list `strings.Split` returns is never empty. -/
theorem stringsSplit_length_pos (s : GoString) (sep : Byte) :
    1 ≤ (stringsSplit s sep).length := by
  have h := congrArg List.length (stringsSplit_take_one s sep)
  simp only [List.length_take, List.length_singleton] at h
  omega

/-- The test of the anchor handler holds exactly under the four conditions. -/
theorem acceptLink_iff (link text : GoString) :
    acceptLink link text = true ↔
      (link.length > 4 ∧ lit "http" <:+: link ∧
        (∃ b ∈ text, (0x41 ≤ b.val ∧ b.val ≤ 0x5A) ∨ (0x61 ≤ b.val ∧ b.val ≤ 0x7A)) ∧
        text.length > 3) := by
  unfold acceptLink
  simp only [Bool.and_eq_true, decide_eq_true_eq, stringsContains_iff, hassomealpha_iff]
  constructor
  · rintro ⟨⟨⟨h1, h2⟩, h3⟩, h4⟩
    exact ⟨h1, h2, h3, h4⟩
  · rintro ⟨h1, h2, h3, h4⟩
    exact ⟨⟨⟨h1, h2⟩, h3⟩, h4⟩


/-! ### The anchor handler -/

/-- What the anchor handler records for an accepted link, and the visit it asks for. -/
theorem recordLink_of_accept (d : ScraperData) (ctx : Context) (rawText link : GoString)
    (p : Page) (hp : d.page ctx.url = some p)
    (hacc : acceptLink link (normalize rawText) = true) :
    recordLink ctx rawText link d =
      some (d.setPage ctx.url
              { p with Links := p.Links.insert (normalize rawText) link,
                       Summary := p.Summary ++ normalize rawText ++ lit ": " ++ link ++ lit " " },
            [link.takeWhile (fun b => decide (b ≠ 0x3F))]) := by
  unfold recordLink
  simp only [hacc, if_true, hp]
  rw [if_pos (stringsSplit_length_pos link 0x3F), stringsSplit_take_one]

/-- What the anchor handler does with a link that is not accepted. -/
theorem recordLink_of_reject (d : ScraperData) (ctx : Context) (rawText link : GoString)
    (hrej : acceptLink link (normalize rawText) = false) :
    recordLink ctx rawText link d = some (d, []) := by
  unfold recordLink
  simp [hrej]

/-- The anchor handler, the visit included, for a link that is not accepted. -/
theorem onAnchor_of_reject (visit : GoString → Crawl → Option Crawl) (rawText link : GoString)
    (st : Crawl) (hrej : acceptLink link (normalize rawText) = false) :
    onAnchor visit rawText link st = some st := by
  unfold onAnchor
  rw [recordLink_of_reject st.data st.ctx rawText link hrej]
  rfl

/-- The anchor handler, the visit included, for an accepted link. -/
theorem onAnchor_of_accept (visit : GoString → Crawl → Option Crawl) (rawText link : GoString)
    (st : Crawl) (p : Page) (hp : st.data.page st.ctx.url = some p)
    (hacc : acceptLink link (normalize rawText) = true) :
    onAnchor visit rawText link st =
      visit (link.takeWhile (fun b => decide (b ≠ 0x3F)))
        { st with data := (st.data.setPage st.ctx.url
            { p with Links := p.Links.insert (normalize rawText) link,
                     Summary := p.Summary ++ normalize rawText ++ lit ": " ++ link ++ lit " " }) } := by
  unfold onAnchor
  rw [recordLink_of_accept st.data st.ctx rawText link p hp hacc]
  simp only [visitAll]
  cases visit _ _ <;> rfl

/-- C3: the anchor handler records the link and requests a follow-visit if and only
if the resolved URL is longer than 4, the resolved URL contains "http", the
normalized text holds an ASCII letter and the normalized text is longer than 3
(lengths in bytes, as `len` counts). Then the link is recorded on the Page the
`Context` names and the handler goes on with the visit of the link; otherwise the
store is unchanged and no visit is requested. -/
theorem onAnchor_records_iff (d : ScraperData) (ctx : Context) (rawText link : GoString) :
    ((link.length > 4 ∧ lit "http" <:+: link ∧
        (∃ b ∈ normalize rawText,
          (0x41 ≤ b.val ∧ b.val ≤ 0x5A) ∨ (0x61 ≤ b.val ∧ b.val ≤ 0x7A)) ∧
        (normalize rawText).length > 3) →
      ∀ p, d.page ctx.url = some p →
      ∃ d1 target p1, recordLink ctx rawText link d = some (d1, [target]) ∧
        d1.page ctx.url = some p1 ∧ p1.Links.lookup (normalize rawText) = some link ∧
        ∀ (visit : GoString → Crawl → Option Crawl) (requests : List GoString),
          onAnchor visit rawText link { data := d, ctx := ctx, requests := requests } =
            visit target { data := d1, ctx := ctx, requests := requests }) ∧
    (¬ (link.length > 4 ∧ lit "http" <:+: link ∧
        (∃ b ∈ normalize rawText,
          (0x41 ≤ b.val ∧ b.val ≤ 0x5A) ∨ (0x61 ≤ b.val ∧ b.val ≤ 0x7A)) ∧
        (normalize rawText).length > 3) →
      recordLink ctx rawText link d = some (d, []) ∧
      ∀ (visit : GoString → Crawl → Option Crawl) (requests : List GoString),
        onAnchor visit rawText link { data := d, ctx := ctx, requests := requests } =
          some { data := d, ctx := ctx, requests := requests }) := by
  constructor
  · intro h p hp
    have hacc := (acceptLink_iff link (normalize rawText)).mpr h
    refine ⟨_, _, _, recordLink_of_accept d ctx rawText link p hp hacc,
      page_setPage d ctx.url p _ hp, AList.lookup_insert _, ?_⟩
    intro visit requests
    exact onAnchor_of_accept visit rawText link { data := d, ctx := ctx, requests := requests }
      p hp hacc
  · intro h
    have hrej : acceptLink link (normalize rawText) = false := by
      rw [← Bool.not_eq_true, acceptLink_iff]
      exact h
    exact ⟨recordLink_of_reject d ctx rawText link hrej,
      fun visit requests => onAnchor_of_reject visit rawText link _ hrej⟩

/-- For an accepted link with normalized text `x` and resolved URL `u`, the anchor
handler leaves, on the Page the `Context` names, `Links[x] = u` and the Summary
extended by `x`, ": ", `u` and " ", every other field of that Page and every other
Page as they were, and requests one visit: to the part of `u` before its first
question mark, which holds no question mark and is `u` when `u` holds none. -/
theorem recordLink_accepted_effect (d : ScraperData) (ctx : Context) (rawText u : GoString)
    (p : Page) (hp : d.page ctx.url = some p)
    (hacc : acceptLink u (normalize rawText) = true) :
    ∃ d1 p1 target, recordLink ctx rawText u d = some (d1, [target]) ∧
      d1.page ctx.url = some p1 ∧
      p1.Links.lookup (normalize rawText) = some u ∧
      (∀ k, k ≠ normalize rawText → p1.Links.lookup k = p.Links.lookup k) ∧
      p1.Summary = p.Summary ++ normalize rawText ++ lit ": " ++ u ++ lit " " ∧
      p1.URL = p.URL ∧ p1.Title = p.Title ∧ p1.Time = p.Time ∧
      (∀ other, other ≠ ctx.url → d1.page other = d.page other) ∧
      d1.Watchlist = d.Watchlist ∧
      (∃ rest, u = target ++ rest ∧ (rest = [] ∨ rest.head? = some 0x3F)) ∧
      (0x3F : Byte) ∉ target ∧
      ((0x3F : Byte) ∉ u → target = u) := by
  refine ⟨_, _, _, recordLink_of_accept d ctx rawText u p hp hacc,
    page_setPage d ctx.url p _ hp,
    AList.lookup_insert _, ?_, rfl, rfl, rfl, rfl, ?_, watchlist_setPage _ _ _, ?_, ?_, ?_⟩
  · intro k hk
    exact AList.lookup_insert_ne hk
  · intro other hne
    exact page_setPage_ne d ctx.url other _ hne
  · refine ⟨u.dropWhile (fun b => decide (b ≠ 0x3F)), (List.takeWhile_append_dropWhile _ _).symm, ?_⟩
    cases hdw : u.dropWhile (fun b => decide (b ≠ 0x3F)) with
    | nil => exact Or.inl rfl
    | cons b rest =>
      right
      have := List.head_dropWhile_not (fun b => decide (b ≠ (0x3F : Byte))) u
        (by rw [hdw]; exact List.cons_ne_nil _ _)
      simp only [hdw, List.head_cons] at this
      simp only [List.head?_cons, Option.some.injEq]
      simpa using this
  · intro hmem
    have := List.mem_takeWhile_imp hmem
    simp at this
  · intro hnot
    rw [List.takeWhile_eq_self_iff]
    intro b hb
    simp only [decide_eq_true_eq]
    rintro rfl
    exact hnot hb

/-- C4 (evaluated on the code): the document "http://s/" has two accepted anchors,
"One page" to "http://s/one" and "Two page" to "http://s/two". The handler of the
first records it on the Page of "http://s/" and visits "http://s/one", whose
visit-start handler overwrites the URL in the shared `Context`; the handler of the
second then records "Two page" on the Page of "http://s/one", and the Page of
"http://s/", the page being visited, never gets `Links["Two page"]`. -/
theorem second_link_recorded_on_followed_page :
    acceptLink (lit "http://s/one") (normalize (lit "One page")) = true ∧
    acceptLink (lit "http://s/two") (normalize (lit "Two page")) = true ∧
    ((visit exampleEngine 7 (lit "http://s/")
        { data := exampleFresh.data, ctx := { url := [] }, requests := [] }).bind
      (fun st => st.data.page (lit "http://s/"))).map
        (fun p => (p.Links.lookup (lit "One page"), p.Links.lookup (lit "Two page"), p.Summary))
      = some (some (lit "http://s/one"), none, lit "One page: http://s/one ") ∧
    ((visit exampleEngine 7 (lit "http://s/")
        { data := exampleFresh.data, ctx := { url := [] }, requests := [] }).bind
      (fun st => st.data.page (lit "http://s/one"))).map
        (fun p => (p.Links.lookup (lit "Two page"), p.Summary))
      = some (some (lit "http://s/two"), lit "Two page: http://s/two ") ∧
    (visit exampleEngine 7 (lit "http://s/")
        { data := exampleFresh.data, ctx := { url := [] }, requests := [] }).map
      (fun st => st.requests)
      = some [lit "http://s/", lit "http://s/one", lit "http://s/two"] := by
  refine ⟨by decide, by decide, by decide, by decide, by decide⟩

/-- C5 as stated fails: the normalized text "aéé" has 3 characters and 5 bytes, so
with the link "http://x" the handler records the link and requests a visit. -/
theorem onAnchor_three_characters_recorded :
    runeCount (normalize (lit "aéé")) = 3 ∧
    (recordLink exampleContext (lit "aéé") (lit "http://x") exampleStore).map (fun r => r.2)
      = some [lit "http://x"] ∧
    ((recordLink exampleContext (lit "aéé") (lit "http://x") exampleStore).bind
          (fun r => r.1.page (lit "https://example.com/"))).map
            (fun p => (p.Links.lookup (lit "aéé"), p.Summary))
      = some (some (lit "http://x"), lit "aéé: http://x ") := by
  refine ⟨by decide, by decide, by decide⟩

/-- C5, amended: when the normalized text has 3 or fewer bytes, the anchor handler
records nothing, appends nothing and requests no visit. -/
theorem onAnchor_short_text (d : ScraperData) (ctx : Context) (rawText link : GoString)
    (hshort : (normalize rawText).length ≤ 3) :
    recordLink ctx rawText link d = some (d, []) ∧
    ∀ (visit : GoString → Crawl → Option Crawl) (requests : List GoString),
      onAnchor visit rawText link { data := d, ctx := ctx, requests := requests } =
        some { data := d, ctx := ctx, requests := requests } := by
  have hrej : acceptLink link (normalize rawText) = false := by
    unfold acceptLink
    have : decide ((normalize rawText).length > 3) = false := by
      rw [decide_eq_false_iff_not]
      omega
    rw [this, Bool.and_false]
  exact ⟨recordLink_of_reject d ctx rawText link hrej,
    fun visit requests => onAnchor_of_reject visit rawText link _ hrej⟩

/-! ### Summary accumulation -/

/-- One text handler appends the normalized text and one space to the Summary. -/
theorem onText_effect (d : ScraperData) (ctx : Context) (e : TextTag × GoString) (p : Page)
    (hp : d.page ctx.url = some p) :
    onText ctx e d = some (d.setPage ctx.url
      { p with Summary := p.Summary ++ (normalize e.2 ++ lit " ") }) := by
  unfold onText
  cases e.1 <;> simp [onH1, onH2, onP, onPre, onCode, appendSummary, hp]

/-- The handlers of a sequence leave the Summary extended by every normalized text,
each followed by one space, in the order of delivery. -/
theorem onTexts_effect (ctx : Context) (events : List (TextTag × GoString)) (d : ScraperData)
    (p : Page) (hp : d.page ctx.url = some p) :
    ∃ d1, onTexts ctx events d = some d1 ∧
      d1.page ctx.url = some { p with Summary := (p.Summary ++
        events.flatMap (fun e => normalize e.2 ++ lit " ")) } ∧
      (∀ other, other ≠ ctx.url → d1.page other = d.page other) ∧
      d1.Watchlist = d.Watchlist := by
  induction events generalizing d p with
  | nil => exact ⟨d, rfl, by simpa using hp, fun _ _ => rfl, rfl⟩
  | cons e rest ih =>
    unfold onTexts
    rw [onText_effect d ctx e p hp]
    simp only
    obtain ⟨d1, h1, h2, h3, h4⟩ := ih
      (d.setPage ctx.url { p with Summary := p.Summary ++ (normalize e.2 ++ lit " ") })
      { p with Summary := p.Summary ++ (normalize e.2 ++ lit " ") }
      (page_setPage d ctx.url p _ hp)
    refine ⟨d1, h1, ?_, ?_, ?_⟩
    · rw [h2]
      simp [List.flatMap_cons, List.append_assoc]
    · intro other hne
      rw [h3 other hne]
      exact page_setPage_ne d ctx.url other _ hne
    · rw [h4]
      exact watchlist_setPage _ _ _

/-- The handlers of a sequence followed by one more event. -/
theorem onTexts_append_one (ctx : Context) (es : List (TextTag × GoString))
    (e : TextTag × GoString) (d : ScraperData) :
    onTexts ctx (es ++ [e]) d = (onTexts ctx es d).bind (onText ctx e) := by
  induction es generalizing d with
  | nil =>
    simp only [List.nil_append, onTexts, Option.some_bind]
    cases onText ctx e d <;> rfl
  | cons a rest ih =>
    simp only [List.cons_append, onTexts]
    cases onText ctx a d with
    | none => rfl
    | some d1 => exact ih d1

/-- C6: for the text events (h1, h2, p, pre, code) of one visit, delivered to a store
that holds a Page at the URL of the `Context`, every event leaves the Summary it found
followed by its normalized text and one space, and the Summary after the whole
sequence is the Summary before it followed by normalized text and one space for
every event, in delivery order, duplicates included. -/
theorem onTexts_summary (ctx : Context) (events : List (TextTag × GoString)) (d : ScraperData)
    (p : Page) (hp : d.page ctx.url = some p) :
    (∃ d1 p1, onTexts ctx events d = some d1 ∧ d1.page ctx.url = some p1 ∧
      p1.Summary = p.Summary ++ events.flatMap (fun e => normalize e.2 ++ lit " ") ∧
      p1.URL = p.URL ∧ p1.Title = p.Title ∧ p1.Time = p.Time) ∧
    (∀ es e, (∃ more, events = es ++ e :: more) →
      ∃ d0 p0 d1 p1, onTexts ctx es d = some d0 ∧ d0.page ctx.url = some p0 ∧
        onTexts ctx (es ++ [e]) d = some d1 ∧ d1.page ctx.url = some p1 ∧
        p1.Summary = p0.Summary ++ normalize e.2 ++ lit " ") := by
  constructor
  · obtain ⟨d1, h1, h2, _, _⟩ := onTexts_effect ctx events d p hp
    exact ⟨d1, _, h1, h2, rfl, rfl, rfl, rfl⟩
  · rintro es e -
    obtain ⟨d0, h1, h2, _, _⟩ := onTexts_effect ctx es d p hp
    have h3 := onTexts_append_one ctx es e d
    rw [h1, Option.some_bind, onText_effect d0 ctx e _ h2] at h3
    refine ⟨d0, _, _, _, h1, h2, h3, page_setPage d0 ctx.url _ _ h2, ?_⟩
    simp [List.append_assoc]
/-! ### UTF-8 decoding -/

/-- What two-byte decoding returns. -/
theorem decodeRune2_cases (s0 : Nat) (rest : GoString) :
    decodeRune2 s0 rest = (RuneError, 1) ∨
    ∃ s1 tl, rest = s1 :: tl ∧ 0x80 ≤ s1.val ∧ s1.val ≤ 0xBF ∧
      decodeRune2 s0 rest = (s0 % 32 * 64 + s1.val % 64, 2) := by
  rcases rest with _ | ⟨s1, tl⟩
  · exact Or.inl rfl
  · by_cases h : 0x80 ≤ s1.val ∧ s1.val ≤ 0xBF
    · exact Or.inr ⟨s1, tl, rfl, h.1, h.2, by simp only [decodeRune2, h, and_self, if_true]⟩
    · exact Or.inl (by simp only [decodeRune2, h, if_false])

/-- What three-byte decoding returns. -/
theorem decodeRune3_cases (s0 lo hi : Nat) (rest : GoString) :
    decodeRune3 s0 lo hi rest = (RuneError, 1) ∨
    ∃ s1 s2 tl, rest = s1 :: s2 :: tl ∧ lo ≤ s1.val ∧ s1.val ≤ hi ∧
      0x80 ≤ s2.val ∧ s2.val ≤ 0xBF ∧
      decodeRune3 s0 lo hi rest = (s0 % 16 * 4096 + s1.val % 64 * 64 + s2.val % 64, 3) := by
  rcases rest with _ | ⟨s1, _ | ⟨s2, tl⟩⟩
  · exact Or.inl rfl
  · exact Or.inl rfl
  · by_cases h1 : lo ≤ s1.val ∧ s1.val ≤ hi
    · by_cases h2 : 0x80 ≤ s2.val ∧ s2.val ≤ 0xBF
      · exact Or.inr ⟨s1, s2, tl, rfl, h1.1, h1.2, h2.1, h2.2,
          by simp only [decodeRune3, h1, h2, and_self, if_true]⟩
      · exact Or.inl (by simp only [decodeRune3, h1, h2, and_self, if_true, if_false])
    · exact Or.inl (by simp only [decodeRune3, h1, if_false])

/-- What four-byte decoding returns. -/
theorem decodeRune4_cases (s0 lo hi : Nat) (rest : GoString) :
    decodeRune4 s0 lo hi rest = (RuneError, 1) ∨
    ∃ s1 s2 s3 tl, rest = s1 :: s2 :: s3 :: tl ∧ lo ≤ s1.val ∧ s1.val ≤ hi ∧
      0x80 ≤ s2.val ∧ s2.val ≤ 0xBF ∧ 0x80 ≤ s3.val ∧ s3.val ≤ 0xBF ∧
      decodeRune4 s0 lo hi rest =
        (s0 % 8 * 262144 + s1.val % 64 * 4096 + s2.val % 64 * 64 + s3.val % 64, 4) := by
  rcases rest with _ | ⟨s1, _ | ⟨s2, _ | ⟨s3, tl⟩⟩⟩
  · exact Or.inl rfl
  · exact Or.inl rfl
  · exact Or.inl rfl
  · by_cases h1 : lo ≤ s1.val ∧ s1.val ≤ hi
    · by_cases h2 : 0x80 ≤ s2.val ∧ s2.val ≤ 0xBF
      · by_cases h3 : 0x80 ≤ s3.val ∧ s3.val ≤ 0xBF
        · exact Or.inr ⟨s1, s2, s3, tl, rfl, h1.1, h1.2, h2.1, h2.2, h3.1, h3.2,
            by simp only [decodeRune4, h1, h2, h3, and_self, if_true]⟩
        · exact Or.inl (by simp only [decodeRune4, h1, h2, h3, and_self, if_true, if_false])
      · exact Or.inl (by simp only [decodeRune4, h1, h2, and_self, if_true, if_false])
    · exact Or.inl (by simp only [decodeRune4, h1, if_false])

/-- The shapes of a decoding: an ASCII byte, an error of width one, or a valid
encoding of two, three or four bytes. -/
theorem decodeRune_cases (b : Byte) (rest : GoString) :
    (b.val < 0x80 ∧ decodeRune (b :: rest) = (b.val, 1)) ∨
    (0x80 ≤ b.val ∧ decodeRune (b :: rest) = (RuneError, 1)) ∨
    (∃ s1 tl, rest = s1 :: tl ∧ 0xC2 ≤ b.val ∧ b.val < 0xE0 ∧ 0x80 ≤ s1.val ∧ s1.val ≤ 0xBF ∧
      decodeRune (b :: rest) = (b.val % 32 * 64 + s1.val % 64, 2)) ∨
    (∃ s1 s2 tl, rest = s1 :: s2 :: tl ∧ 0xE0 ≤ b.val ∧ b.val < 0xF0 ∧
      (if b.val = 0xE0 then 0xA0 else 0x80) ≤ s1.val ∧
      s1.val ≤ (if b.val = 0xED then 0x9F else 0xBF) ∧ 0x80 ≤ s2.val ∧ s2.val ≤ 0xBF ∧
      decodeRune (b :: rest) = (b.val % 16 * 4096 + s1.val % 64 * 64 + s2.val % 64, 3)) ∨
    (∃ s1 s2 s3 tl, rest = s1 :: s2 :: s3 :: tl ∧ 0xF0 ≤ b.val ∧ b.val < 0xF5 ∧
      (if b.val = 0xF0 then 0x90 else 0x80) ≤ s1.val ∧
      s1.val ≤ (if b.val = 0xF4 then 0x8F else 0xBF) ∧ 0x80 ≤ s2.val ∧ s2.val ≤ 0xBF ∧
      0x80 ≤ s3.val ∧ s3.val ≤ 0xBF ∧
      decodeRune (b :: rest) =
        (b.val % 8 * 262144 + s1.val % 64 * 4096 + s2.val % 64 * 64 + s3.val % 64, 4)) := by
  by_cases h1 : b.val < 0x80
  · exact Or.inl ⟨h1, by simp only [decodeRune, h1, if_true]⟩
  by_cases h2 : b.val < 0xC2
  · exact Or.inr (Or.inl ⟨by omega, by simp only [decodeRune, h1, h2, if_true, if_false]⟩)
  by_cases h3 : b.val < 0xE0
  · have hd : decodeRune (b :: rest) = decodeRune2 b.val rest := by
      simp only [decodeRune, h1, h2, h3, if_true, if_false]
    rcases decodeRune2_cases b.val rest with h | ⟨s1, tl, hr, ha, hb, h⟩
    · exact Or.inr (Or.inl ⟨by omega, by rw [hd, h]⟩)
    · exact Or.inr (Or.inr (Or.inl ⟨s1, tl, hr, by omega, h3, ha, hb, by rw [hd, h]⟩))
  by_cases h4 : b.val < 0xF0
  · have hd : decodeRune (b :: rest) = decodeRune3 b.val (if b.val = 0xE0 then 0xA0 else 0x80)
        (if b.val = 0xED then 0x9F else 0xBF) rest := by
      simp only [decodeRune, h1, h2, h3, h4, if_true, if_false]
    rcases decodeRune3_cases b.val (if b.val = 0xE0 then 0xA0 else 0x80)
        (if b.val = 0xED then 0x9F else 0xBF) rest with h | ⟨s1, s2, tl, hr, ha, hb, hc, he, h⟩
    · exact Or.inr (Or.inl ⟨by omega, by rw [hd, h]⟩)
    · exact Or.inr (Or.inr (Or.inr (Or.inl
        ⟨s1, s2, tl, hr, by omega, h4, ha, hb, hc, he, by rw [hd, h]⟩)))
  by_cases h5 : b.val < 0xF5
  · have hd : decodeRune (b :: rest) = decodeRune4 b.val (if b.val = 0xF0 then 0x90 else 0x80)
        (if b.val = 0xF4 then 0x8F else 0xBF) rest := by
      simp only [decodeRune, h1, h2, h3, h4, h5, if_true, if_false]
    rcases decodeRune4_cases b.val (if b.val = 0xF0 then 0x90 else 0x80)
        (if b.val = 0xF4 then 0x8F else 0xBF) rest with
      h | ⟨s1, s2, s3, tl, hr, ha, hb, hc, he, hf, hg, h⟩
    · exact Or.inr (Or.inl ⟨by omega, by rw [hd, h]⟩)
    · exact Or.inr (Or.inr (Or.inr (Or.inr
        ⟨s1, s2, s3, tl, hr, by omega, h5, ha, hb, hc, he, hf, hg, by rw [hd, h]⟩)))
  · exact Or.inr (Or.inl ⟨by omega, by simp only [decodeRune, h1, h2, h3, h4, h5, if_false]⟩)

/-- A decoded rune is at least one byte wide. -/
theorem decodeRune_width_pos (b : Byte) (rest : GoString) :
    1 ≤ (decodeRune (b :: rest)).2 := by
  rcases decodeRune_cases b rest with ⟨_, h⟩ | ⟨_, h⟩ | ⟨_, _, _, _, _, _, _, h⟩ |
    ⟨_, _, _, _, _, _, _, _, _, _, h⟩ | ⟨_, _, _, _, _, _, _, _, _, _, _, _, _, h⟩ <;>
  rw [h] <;> simp

/-- A decoded rune is no wider than the string. -/
theorem decodeRune_width_le (s : GoString) : (decodeRune s).2 ≤ s.length := by
  rcases s with _ | ⟨b, rest⟩
  · simp [decodeRune]
  rcases decodeRune_cases b rest with ⟨_, h⟩ | ⟨_, h⟩ | ⟨_, _, hr, _, _, _, _, h⟩ |
    ⟨_, _, _, hr, _, _, _, _, _, _, h⟩ | ⟨_, _, _, _, hr, _, _, _, _, _, _, _, _, h⟩ <;>
  rw [h] <;> simp [*]

/-- Either the first byte is below `0x80` and is the rune, or the rune is not below `0x80`. -/
theorem decodeRune_ascii_or (b : Byte) (rest : GoString) :
    (b.val < 0x80 ∧ decodeRune (b :: rest) = (b.val, 1)) ∨
    (0x80 ≤ b.val ∧ 0x80 ≤ (decodeRune (b :: rest)).1) := by
  rcases decodeRune_cases b rest with ⟨hb, h⟩ | ⟨hb, h⟩ | ⟨_, _, hr, hb, _, _, _, h⟩ |
    ⟨s1, _, _, hr, hb, _, hlo, hhi, _, _, h⟩ |
    ⟨s1, _, _, _, hr, hb, _, hlo, hhi, _, _, _, _, h⟩
  · exact Or.inl ⟨hb, h⟩
  · exact Or.inr ⟨hb, by rw [h]; simp [RuneError]⟩
  · exact Or.inr ⟨by omega, by rw [h]; simp only; omega⟩
  · refine Or.inr ⟨by omega, ?_⟩
    rw [h]
    simp only
    split_ifs at hlo hhi <;> omega
  · refine Or.inr ⟨by omega, ?_⟩
    rw [h]
    simp only
    split_ifs at hlo hhi <;> omega

/-- A rune that decodes without error is decoded from its own bytes, whatever follows. -/
theorem decodeRune_append (s t : GoString) (hne : s ≠ [])
    (h : decodeRune s ≠ (RuneError, 1)) : decodeRune (s ++ t) = decodeRune s := by
  rcases s with _ | ⟨b, rest⟩
  · exact absurd rfl hne
  rcases decodeRune_cases b rest with ⟨hb, h1⟩ | ⟨hb, h1⟩ | ⟨s1, tl, hr, hb, hb2, ha, ha2, h1⟩ |
    ⟨s1, s2, tl, hr, hb, hb2, ha, ha2, hc, hc2, h1⟩ |
    ⟨s1, s2, s3, tl, hr, hb, hb2, ha, ha2, hc, hc2, he, he2, h1⟩
  · rw [h1]
    simp only [List.cons_append, decodeRune, hb, if_true]
  · exact absurd h1 h
  · subst hr
    rw [h1]
    have n1 : ¬ b.val < 0x80 := by omega
    have n2 : ¬ b.val < 0xC2 := by omega
    simp only [List.cons_append, decodeRune, decodeRune2, n1, n2, hb2, ha, ha2, and_self,
      if_true, if_false]
  · subst hr
    rw [h1]
    have n1 : ¬ b.val < 0x80 := by omega
    have n2 : ¬ b.val < 0xC2 := by omega
    have n3 : ¬ b.val < 0xE0 := by omega
    simp only [List.cons_append, decodeRune, decodeRune3, n1, n2, n3, hb2, ha, ha2, hc, hc2,
      and_self, if_true, if_false]
  · subst hr
    rw [h1]
    have n1 : ¬ b.val < 0x80 := by omega
    have n2 : ¬ b.val < 0xC2 := by omega
    have n3 : ¬ b.val < 0xE0 := by omega
    have n4 : ¬ b.val < 0xF0 := by omega
    simp only [List.cons_append, decodeRune, decodeRune4, n1, n2, n3, n4, hb2, ha, ha2, hc, hc2,
      he, he2, and_self, if_true, if_false]

/-- A white space rune is no `RuneError`. -/
theorem isSpace_ne_error (r w : Nat) (h : isSpace r = true) : (r, w) ≠ (RuneError, 1) := by
  intro heq
  have : r = RuneError := congrArg Prod.fst heq
  subst this
  revert h
  decide

/-! ### Runes of a string -/

/-- Enough fuel gives the runes of the string. -/
theorem runesAux_fuel (n m : Nat) (s : GoString) (hn : s.length ≤ n) (hm : s.length ≤ m) :
    runesAux n s = runesAux m s := by
  induction n generalizing m s with
  | zero =>
    have : s = [] := List.eq_nil_of_length_eq_zero (by omega)
    subst this
    cases m <;> rfl
  | succ n ih =>
    rcases s with _ | ⟨b, rest⟩
    · cases m <;> rfl
    · rcases m with _ | m
      · simp at hm
      · simp only [runesAux]
        congr 1
        apply ih
        · simp only [List.length_drop, List.length_cons] at hn ⊢
          omega
        · simp only [List.length_drop, List.length_cons] at hm ⊢
          omega

/-- The runes of a string that is not empty: the first rune, then the runes of what
follows it. -/
theorem runes_cons (b : Byte) (rest : GoString) :
    runes (b :: rest) =
      (decodeRune (b :: rest)).1 :: runes (rest.drop ((decodeRune (b :: rest)).2 - 1)) := by
  unfold runes
  simp only [List.length_cons, runesAux]
  congr 1
  apply runesAux_fuel
  · simp only [List.length_drop]
    omega
  · exact Nat.le_refl _

/-- The runes of the empty string. -/
theorem runes_nil : runes [] = [] := rfl

/-- The last rune of a string is decoded from the bytes at its end. -/
theorem runes_getLast (n : Nat) (s : GoString) (hn : s.length ≤ n) (r : Nat)
    (h : (runes s).getLast? = some r) :
    ∃ pre e, s = pre ++ e ∧ e ≠ [] ∧ decodeRune e = (r, e.length) := by
  induction n generalizing s with
  | zero =>
    have : s = [] := List.eq_nil_of_length_eq_zero (by omega)
    subst this
    simp [runes_nil] at h
  | succ n ih =>
    rcases s with _ | ⟨b, rest⟩
    · simp [runes_nil] at h
    · rw [runes_cons] at h
      have hw1 := decodeRune_width_pos b rest
      have hw2 := decodeRune_width_le (b :: rest)
      simp only [List.length_cons] at hw2 hn
      by_cases hd : rest.drop ((decodeRune (b :: rest)).2 - 1) = []
      · rw [hd, runes_nil] at h
        simp only [List.getLast?_singleton, Option.some.injEq] at h
        have hlen : rest.length ≤ (decodeRune (b :: rest)).2 - 1 := List.drop_eq_nil_iff.mp hd
        refine ⟨[], b :: rest, rfl, List.cons_ne_nil _ _, ?_⟩
        apply Prod.ext
        · exact h
        · simp only [List.length_cons]
          omega
      · have hne : runes (rest.drop ((decodeRune (b :: rest)).2 - 1)) ≠ [] := by
          cases hdd : rest.drop ((decodeRune (b :: rest)).2 - 1) with
          | nil => exact absurd hdd hd
          | cons c tl => rw [runes_cons]; exact List.cons_ne_nil _ _
        obtain ⟨c, tl, hrs⟩ := List.exists_cons_of_ne_nil hne
        rw [hrs, List.getLast?_cons_cons, ← hrs] at h
        obtain ⟨pre, e, hs, he, hdec⟩ := ih (rest.drop ((decodeRune (b :: rest)).2 - 1))
          (by simp only [List.length_drop]; omega) h
        refine ⟨b :: rest.take ((decodeRune (b :: rest)).2 - 1) ++ pre, e, ?_, he, hdec⟩
        rw [List.append_assoc, ← hs]
        simp

/-! ### Trimming -/

/-- The function `strings.TrimLeftFunc` returns a suffix of the string. -/
theorem trimLeftAux_suffix (n : Nat) (s : GoString) : trimLeftAux n s <:+ s := by
  induction n generalizing s with
  | zero => exact List.suffix_refl _
  | succ n ih =>
    rcases s with _ | ⟨b, rest⟩
    · exact List.suffix_refl _
    · simp only [trimLeftAux]
      split_ifs
      · exact ((ih _).trans (List.drop_suffix _ _)).trans (List.suffix_cons _ _)
      · exact List.suffix_refl _

/-- After `strings.TrimLeftFunc` the first rune is no white space. -/
theorem trimLeftAux_head (n : Nat) (s : GoString) (hn : s.length ≤ n) (r : Nat)
    (h : (runes (trimLeftAux n s)).head? = some r) : isSpace r = false := by
  induction n generalizing s with
  | zero =>
    have : s = [] := List.eq_nil_of_length_eq_zero (by omega)
    subst this
    simp [trimLeftAux, runes_nil] at h
  | succ n ih =>
    rcases s with _ | ⟨b, rest⟩
    · simp [trimLeftAux, runes_nil] at h
    · simp only [trimLeftAux] at h
      simp only [List.length_cons] at hn
      split_ifs at h with hsp
      · exact ih _ (by simp only [List.length_drop]; omega) h
      · rw [runes_cons] at h
        simp only [List.head?_cons, Option.some.injEq] at h
        rw [← h]
        simpa using hsp

/-- The function `strings.TrimRightFunc` returns a prefix of the string. -/
theorem trimRightRevAux_suffix (n : Nat) (s : GoString) : trimRightRevAux n s <:+ s := by
  induction n generalizing s with
  | zero => exact List.suffix_refl _
  | succ n ih =>
    rcases s with _ | ⟨b, rest⟩
    · exact List.suffix_refl _
    · simp only [trimRightRevAux]
      split_ifs
      · exact ((ih _).trans (List.drop_suffix _ _)).trans (List.suffix_cons _ _)
      · exact List.suffix_refl _

/-- After `strings.TrimRightFunc` the last rune is no white space. -/
theorem trimRightRevAux_last (n : Nat) (s : GoString) (hn : s.length ≤ n)
    (hne : trimRightRevAux n s ≠ []) :
    isSpace (decodeLastRuneRev (trimRightRevAux n s)).1 = false := by
  induction n generalizing s with
  | zero =>
    have : s = [] := List.eq_nil_of_length_eq_zero (by omega)
    subst this
    exact absurd rfl hne
  | succ n ih =>
    rcases s with _ | ⟨b, rest⟩
    · exact absurd rfl hne
    · simp only [trimRightRevAux] at hne ⊢
      simp only [List.length_cons] at hn
      split_ifs at hne ⊢ with hsp
      · exact ih _ (by simp only [List.length_drop]; omega) hne
      · simpa using hsp

/-- A white space rune at the end of a string is what `utf8.DecodeLastRuneInString`
finds there. -/
theorem decodeLastRuneRev_of_space (pre e : GoString) (r : Nat) (he : e ≠ [])
    (hdec : decodeRune e = (r, e.length)) (hsp : isSpace r = true) :
    (decodeLastRuneRev (e.reverse ++ pre.reverse)).1 = r := by
  rcases e with _ | ⟨b, rest⟩
  · exact absurd rfl he
  rcases decodeRune_cases b rest with ⟨hb, h1⟩ | ⟨hb, h1⟩ | ⟨s1, tl, hr, hb, hb2, ha, ha2, h1⟩ |
    ⟨s1, s2, tl, hr, hb, hb2, ha, ha2, hc, hc2, h1⟩ |
    ⟨s1, s2, s3, tl, hr, hb, hb2, ha, ha2, hc, hc2, he1, he2, h1⟩
  · rw [h1] at hdec
    have hlen : rest = [] := by
      have := congrArg Prod.snd hdec
      simp only [List.length_cons] at this
      exact List.eq_nil_of_length_eq_zero (by omega)
    subst hlen
    have hr : (b.val : Nat) = r := congrArg Prod.fst hdec
    simp only [List.reverse_cons, List.reverse_nil, List.nil_append, List.singleton_append,
      decodeLastRuneRev, hb, if_true]
    exact hr
  · rw [h1] at hdec
    have hr : RuneError = r := congrArg Prod.fst hdec
    subst hr
    have hf : isSpace RuneError = false := by decide
    rw [hf] at hsp
    cases hsp
  · subst hr
    rw [h1] at hdec
    have hlen : tl = [] := by
      have := congrArg Prod.snd hdec
      simp only [List.length_cons] at this
      exact List.eq_nil_of_length_eq_zero (by omega)
    subst hlen
    have hr := congrArg Prod.fst hdec
    simp only at hr
    have n1 : ¬ s1.val < 0x80 := by omega
    have hs : runeStart b = true := by
      unfold runeStart
      rw [decide_eq_true_iff]
      omega
    simp only [List.reverse_cons, List.reverse_nil, List.nil_append, List.singleton_append,
      List.cons_append, decodeLastRuneRev, n1, if_false, hs, if_true, lastRuneOf, h1,
      List.length_cons, List.length_nil]
    exact hr
  · subst hr
    rw [h1] at hdec
    have hlen : tl = [] := by
      have := congrArg Prod.snd hdec
      simp only [List.length_cons] at this
      exact List.eq_nil_of_length_eq_zero (by omega)
    subst hlen
    have hr := congrArg Prod.fst hdec
    simp only at hr
    have n1 : ¬ s2.val < 0x80 := by omega
    have hs1 : runeStart s1 = false := by
      unfold runeStart
      rw [decide_eq_false_iff_not]
      split_ifs at ha ha2 <;> omega
    have hs : runeStart b = true := by
      unfold runeStart
      rw [decide_eq_true_iff]
      omega
    simp only [List.reverse_cons, List.reverse_nil, List.nil_append, List.singleton_append,
      List.cons_append, decodeLastRuneRev, n1, if_false, hs, hs1, if_true, lastRuneOf, h1,
      List.length_cons, List.length_nil, Bool.false_eq_true]
    exact hr
  · subst hr
    rw [h1] at hdec
    have hr := congrArg Prod.fst hdec
    simp only at hr
    exfalso
    have h4 : 0x10000 ≤ r := by
      rw [← hr]
      split_ifs at ha ha2 <;> omega
    have h5 : isSpace r = false := by
      unfold isSpace
      rw [if_neg (by omega), decide_eq_false_iff_not]
      omega
    rw [h5] at hsp
    cases hsp

/-- The function `strings.TrimSpace` returns a part of the string. -/
theorem trimSpace_infix (s : GoString) : trimSpace s <:+: s := by
  unfold trimSpace
  simp only
  have h1 := trimLeftAux_suffix s.length s
  have h2 := trimRightRevAux_suffix (trimLeftAux s.length s).length (trimLeftAux s.length s).reverse
  have h3 : (trimRightRevAux (trimLeftAux s.length s).length
      (trimLeftAux s.length s).reverse).reverse <+: trimLeftAux s.length s := by
    rw [← List.reverse_suffix, List.reverse_reverse]
    exact h2
  exact h3.isInfix.trans h1.isInfix

/-- After `strings.TrimSpace` the first rune is no white space. -/
theorem trimSpace_head (s : GoString) (r : Nat) (h : (runes (trimSpace s)).head? = some r) :
    isSpace r = false := by
  have h2 := trimRightRevAux_suffix (trimLeftAux s.length s).length (trimLeftAux s.length s).reverse
  have h3 : trimSpace s <+: trimLeftAux s.length s := by
    unfold trimSpace
    simp only
    rw [← List.reverse_suffix, List.reverse_reverse]
    exact h2
  obtain ⟨t, ht⟩ := h3
  rcases hout : trimSpace s with _ | ⟨b, rest⟩
  · rw [hout, runes_nil] at h
    cases h
  · rw [hout, runes_cons] at h
    simp only [List.head?_cons, Option.some.injEq] at h
    by_contra hsp
    rw [Bool.not_eq_false] at hsp
    have hne : decodeRune (b :: rest) ≠ (RuneError, 1) := by
      have := isSpace_ne_error r (decodeRune (b :: rest)).2 hsp
      rw [← h] at this
      exact this
    have happ := decodeRune_append (b :: rest) t (List.cons_ne_nil _ _) hne
    rw [hout] at ht
    rw [ht] at happ
    have hl := trimLeftAux_head s.length s (Nat.le_refl _) r (by
      rw [← ht, List.cons_append, runes_cons]
      simp only [List.head?_cons, Option.some.injEq]
      rw [← List.cons_append, ht, happ]
      exact h)
    rw [hl] at hsp
    cases hsp

/-- After `strings.TrimSpace` the last rune is no white space. -/
theorem trimSpace_last (s : GoString) (r : Nat) (h : (runes (trimSpace s)).getLast? = some r) :
    isSpace r = false := by
  by_contra hsp
  rw [Bool.not_eq_false] at hsp
  obtain ⟨pre, e, hs, he, hdec⟩ := runes_getLast _ (trimSpace s) (Nat.le_refl _) r h
  have hne : trimSpace s ≠ [] := by
    rw [hs]
    simp [he]
  have hrev : (trimSpace s).reverse = e.reverse ++ pre.reverse := by
    rw [hs, List.reverse_append]
  have hd := decodeLastRuneRev_of_space pre e r he hdec hsp
  rw [← hrev] at hd
  have hpost := trimRightRevAux_last (trimLeftAux s.length s).length
    (trimLeftAux s.length s).reverse (by simp) (by
      intro h0
      apply hne
      unfold trimSpace
      simp only
      rw [h0]
      rfl)
  have hrr : (trimSpace s).reverse = trimRightRevAux (trimLeftAux s.length s).length
      (trimLeftAux s.length s).reverse := by
    unfold trimSpace
    simp only [List.reverse_reverse]
  rw [← hrr, hd, hsp] at hpost
  cases hpost

/-! ### Collapsing runs of white space -/

/-- A rune of the class `\s` is below `0x80`. -/
theorem isReSpace_lt (r : Nat) (h : isReSpace r = true) : r < 0x80 := by
  unfold isReSpace at h
  rw [decide_eq_true_iff] at h
  omega

/-- After `space.ReplaceAllString(s, " ")` no two adjacent bytes are of the class `\s`,
and every byte of the class is a space. -/
theorem spaceReplaceAux_collapsed (f : Bool) (s : GoString) :
    List.Chain' (fun a b : Byte => ¬ (isReSpace a.val = true ∧ isReSpace b.val = true))
      (spaceReplaceAux f s) ∧
    (f = true → ∀ b, (spaceReplaceAux f s).head? = some b → isReSpace b.val = false) ∧
    (∀ b ∈ spaceReplaceAux f s, isReSpace b.val = true → b = 0x20) := by
  induction s generalizing f with
  | nil => exact ⟨List.chain'_nil, fun _ b hb => by simp [spaceReplaceAux] at hb,
      fun b hb => by simp [spaceReplaceAux] at hb⟩
  | cons b rest ih =>
    by_cases hws : isReSpace b.val = true
    · cases f with
      | true =>
        simp only [spaceReplaceAux, hws, if_true]
        obtain ⟨h1, h2, h3⟩ := ih true
        exact ⟨h1, fun _ => h2 rfl, h3⟩
      | false =>
        simp only [spaceReplaceAux, hws, if_true, Bool.false_eq_true, if_false]
        obtain ⟨h1, h2, h3⟩ := ih true
        refine ⟨?_, fun hf => hf.elim, ?_⟩
        · rw [List.chain'_cons']
          refine ⟨?_, h1⟩
          intro y hy
          have := h2 rfl y (by simpa using hy)
          simp [this]
        · intro c hc hcw
          rcases List.mem_cons.mp hc with rfl | hc
          · rfl
          · exact h3 c hc hcw
    · simp only [spaceReplaceAux, hws, if_false, Bool.false_eq_true]
      obtain ⟨h1, _, h3⟩ := ih false
      refine ⟨?_, ?_, ?_⟩
      · rw [List.chain'_cons']
        refine ⟨?_, h1⟩
        intro y _ hboth
        exact hws hboth.1
      · intro _ c hc
        simp only [List.head?_cons, Option.some.injEq] at hc
        rw [← hc]
        simpa using hws
      · intro c hc hcw
        rcases List.mem_cons.mp hc with rfl | hc
        · exact absurd hcw hws
        · exact h3 c hc hcw

/-- A first rune of the class `\s` is the first byte. -/
theorem runes_head_reSpace (s : GoString) (r : Nat) (h : (runes s).head? = some r)
    (hws : isReSpace r = true) : ∃ b rest, s = b :: rest ∧ b.val = r ∧
      runes s = r :: runes rest := by
  rcases s with _ | ⟨b, rest⟩
  · rw [runes_nil] at h
    cases h
  · have hc := runes_cons b rest
    rw [hc] at h
    simp only [List.head?_cons, Option.some.injEq] at h
    have hlt := isReSpace_lt r hws
    rcases decodeRune_ascii_or b rest with ⟨_, hd⟩ | ⟨_, hd⟩
    · rw [hd] at h hc
      simp only at h
      simp only [Nat.sub_self, List.drop_zero] at hc
      exact ⟨b, rest, rfl, h, by rw [hc, h]⟩
    · rw [h] at hd
      omega

/-- The property of the bytes carries over to the runes. -/
theorem runes_singleSpaces (n : Nat) (s : GoString) (hn : s.length ≤ n)
    (hc : List.Chain' (fun a b : Byte => ¬ (isReSpace a.val = true ∧ isReSpace b.val = true)) s)
    (ha : ∀ b ∈ s, isReSpace b.val = true → b = 0x20) :
    SingleSpaces isReSpace (runes s) := by
  induction n generalizing s with
  | zero =>
    have : s = [] := List.eq_nil_of_length_eq_zero (by omega)
    subst this
    exact ⟨List.chain'_nil, fun r hr => by simp [runes_nil] at hr⟩
  | succ n ih =>
    rcases s with _ | ⟨b, rest⟩
    · exact ⟨List.chain'_nil, fun r hr => by simp [runes_nil] at hr⟩
    · simp only [List.length_cons] at hn
      have hsuf : rest.drop ((decodeRune (b :: rest)).2 - 1) <:+ b :: rest :=
        (List.drop_suffix _ _).trans (List.suffix_cons _ _)
      obtain ⟨i1, i2⟩ := ih (rest.drop ((decodeRune (b :: rest)).2 - 1))
        (by simp only [List.length_drop]; omega) (hc.suffix hsuf)
        (fun c hcm => ha c (hsuf.subset hcm))
      rw [runes_cons]
      refine ⟨?_, ?_⟩
      · rw [List.chain'_cons']
        refine ⟨?_, i1⟩
        intro y hy hboth
        rcases decodeRune_ascii_or b rest with ⟨_, hd⟩ | ⟨_, hd⟩
        · rw [hd] at hy hboth
          simp only [Nat.sub_self, List.drop_zero] at hy
          obtain ⟨c, tl, hrest, hcv, _⟩ := runes_head_reSpace rest y (by simpa using hy) hboth.2
          subst hrest
          rw [List.chain'_cons] at hc
          apply hc.1
          rw [hcv]
          exact hboth
        · have := isReSpace_lt _ hboth.1
          omega
      · intro r hr hws
        rcases List.mem_cons.mp hr with rfl | hr
        · rcases decodeRune_ascii_or b rest with ⟨_, hd⟩ | ⟨_, hd⟩
          · rw [hd] at hws ⊢
            simp only at hws ⊢
            have := ha b (List.mem_cons_self _ _) hws
            rw [this]
            rfl
          · have := isReSpace_lt _ hws
            omega
        · exact i2 r hr hws


/-- A rune is decoded from the bytes of its width alone. -/
theorem decodeRune_take (b : Byte) (rest : GoString)
    (h : decodeRune (b :: rest) ≠ (RuneError, 1)) :
    decodeRune ((b :: rest).take (decodeRune (b :: rest)).2) = decodeRune (b :: rest) := by
  rcases decodeRune_cases b rest with ⟨hb, h1⟩ | ⟨hb, h1⟩ | ⟨s1, tl, hr, hb, hb2, ha, ha2, h1⟩ |
    ⟨s1, s2, tl, hr, hb, hb2, ha, ha2, hc, hc2, h1⟩ |
    ⟨s1, s2, s3, tl, hr, hb, hb2, ha, ha2, hc, hc2, he, he2, h1⟩
  · rw [h1]
    simp only [List.take_succ_cons, List.take_zero, decodeRune, hb, if_true]
  · exact absurd h1 h
  · subst hr
    rw [h1]
    have n1 : ¬ b.val < 0x80 := by omega
    have n2 : ¬ b.val < 0xC2 := by omega
    simp only [List.take_succ_cons, List.take_zero, decodeRune, decodeRune2, n1, n2, hb2, ha, ha2,
      and_self, if_true, if_false]
  · subst hr
    rw [h1]
    have n1 : ¬ b.val < 0x80 := by omega
    have n2 : ¬ b.val < 0xC2 := by omega
    have n3 : ¬ b.val < 0xE0 := by omega
    simp only [List.take_succ_cons, List.take_zero, decodeRune, decodeRune3, n1, n2, n3, hb2, ha,
      ha2, hc, hc2, and_self, if_true, if_false]
  · subst hr
    rw [h1]
    have n1 : ¬ b.val < 0x80 := by omega
    have n2 : ¬ b.val < 0xC2 := by omega
    have n3 : ¬ b.val < 0xE0 := by omega
    have n4 : ¬ b.val < 0xF0 := by omega
    simp only [List.take_succ_cons, List.take_zero, decodeRune, decodeRune4, n1, n2, n3, n4, hb2,
      ha, ha2, hc, hc2, he, he2, and_self, if_true, if_false]

/-! ### What normalization keeps -/

/-- The runes of the encoding of one rune. -/
theorem runes_single (e : GoString) (r : Nat) (he : e ≠ [])
    (hdec : decodeRune e = (r, e.length)) : runes e = [r] := by
  rcases e with _ | ⟨b, rest⟩
  · exact absurd rfl he
  · rw [runes_cons, hdec]
    simp [runes_nil]

/-- Behind white space characters, the runes of what follows are decoded as they are
alone. -/
theorem runes_append_of_blank (n : Nat) (a b : GoString) (hn : a.length ≤ n)
    (ha : ∀ r ∈ runes a, isSpace r = true) : runes (a ++ b) = runes a ++ runes b := by
  induction n generalizing a with
  | zero =>
    have : a = [] := List.eq_nil_of_length_eq_zero (by omega)
    subst this
    simp [runes_nil]
  | succ n ih =>
    rcases a with _ | ⟨c, a1⟩
    · simp [runes_nil]
    · have hc := runes_cons c a1
      have hsp : isSpace (decodeRune (c :: a1)).1 = true :=
        ha _ (by rw [hc]; exact List.mem_cons_self _ _)
      have hne : decodeRune (c :: a1) ≠ (RuneError, 1) :=
        isSpace_ne_error _ (decodeRune (c :: a1)).2 hsp
      have happ := decodeRune_append (c :: a1) b (List.cons_ne_nil _ _) hne
      have hw1 := decodeRune_width_pos c a1
      have hw2 := decodeRune_width_le (c :: a1)
      simp only [List.length_cons] at hw2 hn
      rw [List.cons_append] at happ ⊢
      rw [runes_cons, happ, hc, List.cons_append]
      congr 1
      rw [List.drop_append_of_le_length (by omega)]
      apply ih
      · simp only [List.length_drop]
        omega
      · intro r hr
        exact ha r (by rw [hc]; exact List.mem_cons_of_mem _ hr)

/-- What `strings.TrimLeftFunc` strips is white space characters. -/
theorem trimLeftAux_blank (n : Nat) (s : GoString) :
    ∃ pre, s = pre ++ trimLeftAux n s ∧ ∀ r ∈ runes pre, isSpace r = true := by
  induction n generalizing s with
  | zero => exact ⟨[], rfl, fun r hr => by simp [runes_nil] at hr⟩
  | succ n ih =>
    rcases s with _ | ⟨b, rest⟩
    · exact ⟨[], rfl, fun r hr => by simp [runes_nil] at hr⟩
    · simp only [trimLeftAux]
      by_cases hsp : isSpace (decodeRune (b :: rest)).1 = true
      · rw [if_pos hsp]
        obtain ⟨pre1, h1, h2⟩ := ih (rest.drop ((decodeRune (b :: rest)).2 - 1))
        have hne : decodeRune (b :: rest) ≠ (RuneError, 1) :=
          isSpace_ne_error _ (decodeRune (b :: rest)).2 hsp
        have hw1 := decodeRune_width_pos b rest
        have hw2 := decodeRune_width_le (b :: rest)
        simp only [List.length_cons] at hw2
        have htk : (b :: rest).take (decodeRune (b :: rest)).2 =
            b :: rest.take ((decodeRune (b :: rest)).2 - 1) := by
          obtain ⟨w, hw⟩ : ∃ w, (decodeRune (b :: rest)).2 = w + 1 :=
            ⟨_, (Nat.sub_add_cancel hw1).symm⟩
          rw [hw]
          simp
        have hlen : ((b :: rest).take (decodeRune (b :: rest)).2).length =
            (decodeRune (b :: rest)).2 := by
          rw [List.length_take, List.length_cons]
          omega
        have hone : runes ((b :: rest).take (decodeRune (b :: rest)).2) =
            [(decodeRune (b :: rest)).1] := by
          apply runes_single
          · rw [htk]
            exact List.cons_ne_nil _ _
          · rw [decodeRune_take b rest hne, hlen]
        refine ⟨(b :: rest).take (decodeRune (b :: rest)).2 ++ pre1, ?_, ?_⟩
        · rw [List.append_assoc, ← h1, htk, List.cons_append, List.take_append_drop]
        · intro r hr
          rw [runes_append_of_blank _ _ _ (Nat.le_refl _)
            (by rw [hone]; intro x hx; rw [List.mem_singleton.mp hx]; exact hsp), hone] at hr
          rcases List.mem_append.mp hr with h | h
          · rw [List.mem_singleton.mp h]
            exact hsp
          · exact h2 r h
      · rw [if_neg hsp]
        exact ⟨[], rfl, fun r hr => by simp [runes_nil] at hr⟩

/-- A white space rune that `utf8.DecodeLastRuneInString` finds is encoded by the last
bytes of the string. -/
theorem decodeLastRuneRev_space_inv (b : Byte) (before : GoString)
    (hsp : isSpace (decodeLastRuneRev (b :: before)).1 = true) :
    ∃ e, e ≠ [] ∧
      b :: before = e.reverse ++ before.drop ((decodeLastRuneRev (b :: before)).2 - 1) ∧
      decodeRune e = ((decodeLastRuneRev (b :: before)).1, e.length) := by
  have herr : isSpace RuneError = false := by decide
  have hlast : ∀ bytes : GoString, isSpace (lastRuneOf bytes).1 = true →
      lastRuneOf bytes = decodeRune bytes ∧ (decodeRune bytes).2 = bytes.length := by
    intro bytes h
    unfold lastRuneOf at h ⊢
    by_cases hw : (decodeRune bytes).2 = bytes.length
    · rw [if_pos hw]
      exact ⟨rfl, hw⟩
    · rw [if_neg hw] at h
      rw [herr] at h
      cases h
  unfold decodeLastRuneRev at hsp ⊢
  by_cases hb : b.val < 0x80
  · simp only [hb, if_true] at hsp ⊢
    refine ⟨[b], List.cons_ne_nil _ _, by simp, ?_⟩
    simp only [decodeRune, hb, if_true, List.length_singleton]
  · simp only [hb, if_false] at hsp ⊢
    rcases before with _ | ⟨b2, before2⟩
    · simp only at hsp
      rw [herr] at hsp
      cases hsp
    · simp only at hsp ⊢
      by_cases hs2 : runeStart b2 = true
      · simp only [hs2, if_true] at hsp ⊢
        obtain ⟨h1, h2⟩ := hlast _ hsp
        refine ⟨[b2, b], List.cons_ne_nil _ _, ?_, ?_⟩
        · rw [h1, h2]
          simp
        · rw [h1]
          exact Prod.ext rfl h2
      · simp only [hs2, if_false, Bool.false_eq_true] at hsp ⊢
        rcases before2 with _ | ⟨b3, before3⟩
        · simp only at hsp
          rw [herr] at hsp
          cases hsp
        · simp only at hsp ⊢
          by_cases hs3 : runeStart b3 = true
          · simp only [hs3, if_true] at hsp ⊢
            obtain ⟨h1, h2⟩ := hlast _ hsp
            refine ⟨[b3, b2, b], List.cons_ne_nil _ _, ?_, ?_⟩
            · rw [h1, h2]
              simp
            · rw [h1]
              exact Prod.ext rfl h2
          · simp only [hs3, if_false, Bool.false_eq_true] at hsp ⊢
            rcases before3 with _ | ⟨b4, before4⟩
            · simp only at hsp
              rw [herr] at hsp
              cases hsp
            · simp only at hsp ⊢
              by_cases hs4 : runeStart b4 = true
              · simp only [hs4, if_true] at hsp ⊢
                obtain ⟨h1, h2⟩ := hlast _ hsp
                refine ⟨[b4, b3, b2, b], List.cons_ne_nil _ _, ?_, ?_⟩
                · rw [h1, h2]
                  simp
                · rw [h1]
                  exact Prod.ext rfl h2
              · simp only [hs4, if_false, Bool.false_eq_true] at hsp
                rw [herr] at hsp
                cases hsp

/-- What `strings.TrimRightFunc` strips is white space characters. -/
theorem trimRightRevAux_blank (n : Nat) (t : GoString) :
    ∃ post, t = post.reverse ++ trimRightRevAux n t ∧ ∀ r ∈ runes post, isSpace r = true := by
  induction n generalizing t with
  | zero => exact ⟨[], rfl, fun r hr => by simp [runes_nil] at hr⟩
  | succ n ih =>
    rcases t with _ | ⟨b, before⟩
    · exact ⟨[], rfl, fun r hr => by simp [runes_nil] at hr⟩
    · simp only [trimRightRevAux]
      by_cases hsp : isSpace (decodeLastRuneRev (b :: before)).1 = true
      · rw [if_pos hsp]
        obtain ⟨post1, h1, h2⟩ := ih (before.drop ((decodeLastRuneRev (b :: before)).2 - 1))
        obtain ⟨e, he, hsplit, hdec⟩ := decodeLastRuneRev_space_inv b before hsp
        have hone : runes e = [(decodeLastRuneRev (b :: before)).1] := runes_single e _ he hdec
        refine ⟨post1 ++ e, ?_, ?_⟩
        · rw [List.reverse_append, List.append_assoc, ← h1]
          exact hsplit
        · intro r hr
          rw [runes_append_of_blank _ _ _ (Nat.le_refl _) h2, hone] at hr
          rcases List.mem_append.mp hr with h | h
          · exact h2 r h
          · rw [List.mem_singleton.mp h]
            exact hsp
      · rw [if_neg hsp]
        exact ⟨[], rfl, fun r hr => by simp [runes_nil] at hr⟩

/-- The function `strings.TrimSpace` strips white space characters at the two ends and
nothing else. -/
theorem trimSpace_blank_ends (s : GoString) :
    ∃ pre post, s = pre ++ trimSpace s ++ post ∧
      (∀ r ∈ runes pre, isSpace r = true) ∧ (∀ r ∈ runes post, isSpace r = true) := by
  obtain ⟨pre, h1, h2⟩ := trimLeftAux_blank s.length s
  obtain ⟨post, h3, h4⟩ := trimRightRevAux_blank (trimLeftAux s.length s).length
    (trimLeftAux s.length s).reverse
  refine ⟨pre, post, ?_, h2, h4⟩
  have h5 : trimLeftAux s.length s = trimSpace s ++ post := by
    have := congrArg List.reverse h3
    rw [List.reverse_reverse, List.reverse_append, List.reverse_reverse] at this
    exact this
  rw [List.append_assoc, ← h5]
  exact h1

/-- The call `space.ReplaceAllString(s, " ")` keeps the bytes outside the class `\s`, in
their order. -/
theorem spaceReplaceAux_filter (f : Bool) (s : GoString) :
    (spaceReplaceAux f s).filter (fun b => !isReSpace b.val) =
      s.filter (fun b => !isReSpace b.val) := by
  induction s generalizing f with
  | nil => rfl
  | cons b rest ih =>
    by_cases hws : isReSpace b.val = true
    · cases f with
      | true => simp [spaceReplaceAux, hws, ih]
      | false =>
        have h20 : isReSpace ((0x20 : Byte) : Nat) = true := by decide
        simp [spaceReplaceAux, hws, ih, List.filter_cons, h20]
    · simp [spaceReplaceAux, hws, ih, List.filter_cons]

/-- The replacement of a string in two parts: the second part is in a run when the
first part ends with a byte of the class `\s`. -/
theorem spaceReplaceAux_append (f : Bool) (u rest : GoString) :
    spaceReplaceAux f (u ++ rest) =
      spaceReplaceAux f u ++
        spaceReplaceAux (match u.getLast? with
          | some b => isReSpace b.val
          | none => f) rest := by
  induction u generalizing f with
  | nil => rfl
  | cons b u1 ih =>
    have hlast : ∀ g : Bool, (match (b :: u1).getLast? with
          | some c => isReSpace c.val
          | none => g) =
        (match u1.getLast? with
          | some c => isReSpace c.val
          | none => isReSpace b.val) := by
      intro g
      rcases u1 with _ | ⟨c, u2⟩
      · rfl
      · rw [List.getLast?_cons_cons]
        cases hl : (c :: u2).getLast? with
        | none => simp at hl
        | some x => rfl
    rw [hlast f]
    by_cases hws : isReSpace b.val = true
    · cases f with
      | true =>
        change spaceReplaceAux true (b :: (u1 ++ rest)) = _
        simp only [spaceReplaceAux, hws, if_true]
        rw [ih true]
      | false =>
        change spaceReplaceAux false (b :: (u1 ++ rest)) = _
        simp only [spaceReplaceAux, hws, if_true, Bool.false_eq_true, if_false,
          List.cons_append]
        rw [ih true]
    · have hf : isReSpace b.val = false := by simpa using hws
      change spaceReplaceAux f (b :: (u1 ++ rest)) = _
      simp only [spaceReplaceAux, hf, Bool.false_eq_true, if_false, List.cons_append]
      rw [ih false]

/-- A run of bytes of the class `\s` becomes one space, or nothing when it goes on a
run. -/
theorem spaceReplaceAux_run (ws : GoString) (hne : ws ≠ [])
    (hall : ∀ b ∈ ws, isReSpace b.val = true) :
    spaceReplaceAux false ws = [0x20] ∧ spaceReplaceAux true ws = [] := by
  have htrue : ∀ l : GoString, (∀ b ∈ l, isReSpace b.val = true) → spaceReplaceAux true l = [] := by
    intro l
    induction l with
    | nil => intro _; rfl
    | cons b l1 ih =>
      intro hl
      simp only [spaceReplaceAux, hl b (List.mem_cons_self _ _), if_true]
      exact ih (fun c hc => hl c (List.mem_cons_of_mem _ hc))
  rcases ws with _ | ⟨b, ws1⟩
  · exact absurd rfl hne
  · refine ⟨?_, htrue _ hall⟩
    simp only [spaceReplaceAux, hall b (List.mem_cons_self _ _), if_true, Bool.false_eq_true,
      if_false]
    rw [htrue ws1 (fun c hc => hall c (List.mem_cons_of_mem _ hc))]

/-- Before a byte outside the class `\s` it does not matter whether a run precedes. -/
theorem spaceReplaceAux_flag (v : GoString) (hv : ∀ b, v.head? = some b → isReSpace b.val = false) :
    spaceReplaceAux true v = spaceReplaceAux false v := by
  rcases v with _ | ⟨c, v1⟩
  · rfl
  · have := hv c rfl
    simp only [spaceReplaceAux, this, Bool.false_eq_true, if_false]

/-- The call `space.ReplaceAllString(s, " ")` replaces a maximal run by one space. -/
theorem spaceReplaceAll_run (u ws v : GoString) (hne : ws ≠ [])
    (hall : ∀ b ∈ ws, isReSpace b.val = true)
    (hu : ∀ b, u.getLast? = some b → isReSpace b.val = false)
    (hv : ∀ b, v.head? = some b → isReSpace b.val = false) :
    spaceReplaceAll (u ++ ws ++ v) = spaceReplaceAll u ++ 0x20 :: spaceReplaceAll v := by
  unfold spaceReplaceAll
  have hflag : (match u.getLast? with
      | some b => isReSpace b.val
      | none => false) = false := by
    cases hl : u.getLast? with
    | none => rfl
    | some b => exact hu b hl
  have hflag2 : (match ws.getLast? with
      | some b => isReSpace b.val
      | none => false) = true := by
    cases hl : ws.getLast? with
    | none => exact absurd (List.getLast?_eq_none_iff.mp hl) hne
    | some b => exact hall b (List.mem_of_mem_getLast? (Option.mem_def.mpr hl))
  rw [List.append_assoc, spaceReplaceAux_append false u, hflag, spaceReplaceAux_append false ws,
    hflag2, (spaceReplaceAux_run ws hne hall).1, spaceReplaceAux_flag v hv]
  rfl

/-- The call `space.ReplaceAllString(s, " ")` leaves a string without a byte of the
class `\s` as it is. -/
theorem spaceReplaceAll_of_none (w : GoString) (hw : ∀ b ∈ w, isReSpace b.val = false) :
    spaceReplaceAll w = w := by
  unfold spaceReplaceAll
  induction w with
  | nil => rfl
  | cons b w1 ih =>
    simp only [spaceReplaceAux, hw b (List.mem_cons_self _ _), Bool.false_eq_true, if_false]
    rw [ih (fun c hc => hw c (List.mem_cons_of_mem _ hc))]

/-! ### The normalized text -/

/-- C8 as stated fails: the text "a", two vertical tabs (U+000B), "b" is stored as it
is; the pattern `\s+` does not match a vertical tab, which `strings.TrimSpace` strips, so
two adjacent white space characters stay, neither of them U+0020. -/
theorem normalize_keeps_vertical_tabs :
    normalize [0x61, 0x0B, 0x0B, 0x62] = [0x61, 0x0B, 0x0B, 0x62] ∧
    runes (normalize [0x61, 0x0B, 0x0B, 0x62]) = [0x61, 0x0B, 0x0B, 0x62] ∧
    isSpace 0x0B = true ∧
    ¬ (NoSpaceAtEnds (runes (normalize [0x61, 0x0B, 0x0B, 0x62])) ∧
        SingleSpaces isSpace (runes (normalize [0x61, 0x0B, 0x0B, 0x62]))) := by
  have h1 : normalize [0x61, 0x0B, 0x0B, 0x62] = [0x61, 0x0B, 0x0B, 0x62] := by decide
  have h2 : runes (normalize [0x61, 0x0B, 0x0B, 0x62]) = [0x61, 0x0B, 0x0B, 0x62] := by decide
  refine ⟨h1, h2, by decide, ?_⟩
  rintro ⟨_, _, hall⟩
  rw [h2] at hall
  have := hall 0x0B (by simp) (by decide)
  omega

/-- C8, amended: the text the title handler stores is the input with every maximal
run of characters of the class `\s` (tab, line feed, form feed, carriage return,
space) replaced by one space, then stripped of the white space characters (any
character `strings.TrimSpace` strips) at its two ends and of nothing else. So it has
no white space character at either end, it holds no two adjacent characters of the
class `\s`, every character of that class in it is U+0020, and the characters outside
the class `\s`, white space such as the vertical tab included, are kept in their order
except at the stripped ends. The handler stores it as the Title. -/
theorem normalize_whitespace (text : GoString) :
    NoSpaceAtEnds (runes (normalize text)) ∧
    SingleSpaces isReSpace (runes (normalize text)) ∧
    (∃ pre post, spaceReplaceAll text = pre ++ normalize text ++ post ∧
      (∀ r ∈ runes pre, isSpace r = true) ∧ (∀ r ∈ runes post, isSpace r = true)) ∧
    (spaceReplaceAll text).filter (fun b => !isReSpace b.val) =
      text.filter (fun b => !isReSpace b.val) ∧
    (∀ u ws v, text = u ++ ws ++ v → ws ≠ [] → (∀ b ∈ ws, isReSpace b.val = true) →
      (∀ b, u.getLast? = some b → isReSpace b.val = false) →
      (∀ b, v.head? = some b → isReSpace b.val = false) →
      spaceReplaceAll text = spaceReplaceAll u ++ 0x20 :: spaceReplaceAll v) ∧
    ((∀ b ∈ text, isReSpace b.val = false) → spaceReplaceAll text = text) ∧
    (∀ d ctx p, d.page ctx.url = some p →
      ∃ d1 p1, onTitle ctx text d = some d1 ∧ d1.page ctx.url = some p1 ∧
        p1.Title = normalize text ∧ p1.Summary = p.Summary ∧ p1.Links = p.Links) := by
  refine ⟨⟨trimSpace_head _, trimSpace_last _⟩, ?_, trimSpace_blank_ends _,
    spaceReplaceAux_filter false text, ?_, spaceReplaceAll_of_none text, ?_⟩
  · obtain ⟨h1, _, h3⟩ := spaceReplaceAux_collapsed false text
    have hin : normalize text <:+: spaceReplaceAux false text := trimSpace_infix _
    have hchain := List.Chain'.infix h1 hin
    exact runes_singleSpaces _ _ (Nat.le_refl _) hchain (fun b hb => h3 b (hin.subset hb))
  · intro u ws v htext hne hall hu hv
    rw [htext]
    exact spaceReplaceAll_run u ws v hne hall hu hv
  · intro d ctx p hp
    have ht : onTitle ctx text d = some (d.setPage ctx.url { p with Title := normalize text }) := by
      simp only [onTitle, setTitle, hp]
    exact ⟨_, _, ht, page_setPage d ctx.url p _ hp, rfl, rfl, rfl⟩

/-! ### Strings in a JSON document -/

/-- A byte is the byte of its value. -/
theorem ofNat_val (b : Byte) : (Fin.ofNat b.val : Byte) = b := by
  apply Fin.ext
  simp only [Fin.ofNat]
  omega

/-- The value of a hexadecimal digit written by the encoder. -/
theorem hexValue_hexDigit (n : Nat) (h : n < 16) : hexValue (hexDigit n) = some n := by
  interval_cases n <;> rfl

/-- The encoding of a rune decoded without error is the bytes it was decoded from. -/
theorem encodeRune_decodeRune (b : Byte) (rest : GoString) (hb : 0x80 ≤ b.val)
    (h : decodeRune (b :: rest) ≠ (RuneError, 1)) :
    encodeRune (decodeRune (b :: rest)).1 = (b :: rest).take (decodeRune (b :: rest)).2 := by
  rcases decodeRune_cases b rest with ⟨hb1, _⟩ | ⟨_, h1⟩ | ⟨s1, tl, hr, hb1, hb2, ha, ha2, h1⟩ |
    ⟨s1, s2, tl, hr, hb1, hb2, ha, ha2, hc, hc2, h1⟩ |
    ⟨s1, s2, s3, tl, hr, hb1, hb2, ha, ha2, hc, hc2, he1, he2, h1⟩
  · omega
  · exact absurd h1 h
  · subst hr
    rw [h1]
    simp only [List.take_succ_cons, List.take_zero]
    unfold encodeRune
    rw [if_neg (by omega), if_pos (by omega)]
    congr 1
    · apply Fin.ext; simp only [Fin.ofNat]; omega
    · congr 1
      apply Fin.ext; simp only [Fin.ofNat]; omega
  · subst hr
    rw [h1]
    simp only [List.take_succ_cons, List.take_zero]
    unfold encodeRune
    split_ifs at ha ha2 <;>
    · rw [if_neg (by omega), if_neg (by omega), if_neg (by omega), if_pos (by omega)]
      simp only [List.cons.injEq, and_true]
      refine ⟨?_, ?_, ?_⟩ <;>
      · apply Fin.ext
        simp only [Fin.ofNat]
        omega
  · subst hr
    rw [h1]
    simp only [List.take_succ_cons, List.take_zero]
    unfold encodeRune
    split_ifs at ha ha2 <;>
    · rw [if_neg (by omega), if_neg (by omega), if_neg (by omega), if_neg (by omega)]
      simp only [List.cons.injEq, and_true]
      refine ⟨?_, ?_, ?_, ?_⟩ <;>
      · apply Fin.ext
        simp only [Fin.ofNat]
        omega


/-! ### Quoting and unquoting -/

/-- Enough fuel gives the quoted string. -/
theorem quoteAux_fuel (n m : Nat) (s : GoString) (hn : s.length ≤ n) (hm : s.length ≤ m) :
    quoteAux n s = quoteAux m s := by
  induction n generalizing m s with
  | zero =>
    have : s = [] := List.eq_nil_of_length_eq_zero (by omega)
    subst this
    cases m <;> rfl
  | succ n ih =>
    rcases s with _ | ⟨b, rest⟩
    · cases m <;> rfl
    · rcases m with _ | m
      · simp at hm
      · simp only [List.length_cons] at hn hm
        have e1 := ih m rest (by omega) (by omega)
        have e2 := ih m (rest.drop ((decodeRune (b :: rest)).2 - 1))
          (by simp only [List.length_drop]; omega) (by simp only [List.length_drop]; omega)
        simp only [quoteAux, e1, e2]

/-- Enough fuel decides validity. -/
theorem validUTF8Aux_fuel (n m : Nat) (s : GoString) (hn : s.length ≤ n) (hm : s.length ≤ m) :
    validUTF8Aux n s = validUTF8Aux m s := by
  induction n generalizing m s with
  | zero =>
    have : s = [] := List.eq_nil_of_length_eq_zero (by omega)
    subst this
    cases m <;> rfl
  | succ n ih =>
    rcases s with _ | ⟨b, rest⟩
    · cases m <;> rfl
    · rcases m with _ | m
      · simp at hm
      · simp only [List.length_cons] at hn hm
        have e2 := ih m (rest.drop ((decodeRune (b :: rest)).2 - 1))
          (by simp only [List.length_drop]; omega) (by simp only [List.length_drop]; omega)
        simp only [validUTF8Aux, e2]

/-- A valid string starts with a rune decoded without error, and what follows it is valid. -/
theorem validUTF8_cons (b : Byte) (rest : GoString) (h : validUTF8 (b :: rest) = true) :
    decodeRune (b :: rest) ≠ (RuneError, 1) ∧
      validUTF8 (rest.drop ((decodeRune (b :: rest)).2 - 1)) = true := by
  unfold validUTF8 at h ⊢
  simp only [List.length_cons, validUTF8Aux] at h
  split_ifs at h with hd
  refine ⟨hd, ?_⟩
  rw [← h]
  apply validUTF8Aux_fuel
  · exact Nat.le_refl _
  · simp only [List.length_drop]
    omega

/-- What the decoder does with the bytes the encoder writes for a byte below `0x80`. -/
theorem unquoteAux_quoteAscii (b : Byte) (hb : b.val < 0x80) (n : Nat) (input : GoString) :
    unquoteAux (n + 1) (quoteAscii b ++ input) =
      match unquoteAux n input with
      | none => none
      | some (s, rest) => some (b :: s, rest) := by
  unfold quoteAscii
  split_ifs with h1 h2 h3 h4 h5 h6 h7
  · rcases h1 with rfl | rfl <;> simp [unquoteAux, unescape]
  · subst h2; simp [unquoteAux, unescape]
  · subst h3; simp [unquoteAux, unescape]
  · subst h4; simp [unquoteAux, unescape]
  · subst h5; simp [unquoteAux, unescape]
  · subst h6; simp [unquoteAux, unescape]
  · have hx : getu4 (0x30 :: 0x30 :: hexDigit (b.val / 16) :: hexDigit (b.val % 16) :: input)
        = some (b.val, input) := by
      have e0 : hexValue 0x30 = some 0 := rfl
      simp only [getu4, e0, hexValue_hexDigit (b.val / 16) (by omega),
        hexValue_hexDigit (b.val % 16) (by omega)]
      congr 2
      omega
    have he : encodeRune b.val = [b] := by
      unfold encodeRune
      rw [if_pos (by omega), ofNat_val]
    have hu : unescape (0x75 :: 0x30 :: 0x30 :: hexDigit (b.val / 16) :: hexDigit (b.val % 16)
        :: input) = some ([b], input) := by
      have c1 : ¬ ((0x75 : Byte) = 0x22 ∨ (0x75 : Byte) = 0x5C ∨ (0x75 : Byte) = 0x2F) := by decide
      have c2 : ¬ (0x75 : Byte) = 0x62 := by decide
      have c3 : ¬ (0x75 : Byte) = 0x66 := by decide
      have c4 : ¬ (0x75 : Byte) = 0x6E := by decide
      have c5 : ¬ (0x75 : Byte) = 0x72 := by decide
      have c6 : ¬ (0x75 : Byte) = 0x74 := by decide
      have c7 : ¬ (0xD800 ≤ b.val ∧ b.val < 0xE000) := by omega
      simp only [unescape, c1, c2, c3, c4, c5, c6, if_false, if_true, hx, c7, he]
    have q1 : ¬ (0x5C : Byte) = 0x22 := by decide
    change unquoteAux (n + 1) (0x5C :: 0x75 :: 0x30 :: 0x30 :: hexDigit (b.val / 16) ::
      hexDigit (b.val % 16) :: input) = _
    simp only [unquoteAux, q1, if_false, if_true, hu]
    cases unquoteAux n input with
    | none => rfl
    | some p => rfl
  · have q1 : ¬ b = 0x22 := fun h => h1 (Or.inl h)
    have q2 : ¬ b = 0x5C := fun h => h1 (Or.inr h)
    have q3 : ¬ b.val < 0x20 := fun h => h7 (Or.inl h)
    change unquoteAux (n + 1) (b :: input) = _
    simp only [unquoteAux, q1, q2, q3, hb, if_false, if_true]

/-- The quoted string, without its quotes. -/
theorem quoteAux_cons (b : Byte) (rest : GoString) :
    quoteAux (b :: rest).length (b :: rest) =
      if b.val < 0x80 then quoteAscii b ++ quoteAux rest.length rest
      else if decodeRune (b :: rest) = (RuneError, 1) then
        [0x5C, 0x75, 0x66, 0x66, 0x66, 0x64] ++ quoteAux rest.length rest
      else if (decodeRune (b :: rest)).1 = 0x2028 ∨ (decodeRune (b :: rest)).1 = 0x2029 then
        [0x5C, 0x75, 0x32, 0x30, 0x32, hexDigit ((decodeRune (b :: rest)).1 % 16)] ++
          quoteAux (rest.drop ((decodeRune (b :: rest)).2 - 1)).length
            (rest.drop ((decodeRune (b :: rest)).2 - 1))
      else
        (b :: rest).take (decodeRune (b :: rest)).2 ++
          quoteAux (rest.drop ((decodeRune (b :: rest)).2 - 1)).length
            (rest.drop ((decodeRune (b :: rest)).2 - 1)) := by
  have e := quoteAux_fuel rest.length (rest.drop ((decodeRune (b :: rest)).2 - 1)).length
    (rest.drop ((decodeRune (b :: rest)).2 - 1)) (by simp only [List.length_drop]; omega)
    (Nat.le_refl _)
  simp only [List.length_cons, quoteAux, e]

/-- A byte of the encoder for a byte below `0x80` is written for it. -/
theorem quoteAscii_length_pos (b : Byte) : 1 ≤ (quoteAscii b).length := by
  unfold quoteAscii
  split_ifs <;> simp

/-- The decoder reads back a quoted valid string, up to the closing quote. -/
theorem unquoteAux_quoteAux (k : Nat) (s : GoString) (hk : s.length ≤ k) (n : Nat)
    (rest : GoString) (hv : validUTF8 s = true) (hn : (quoteAux s.length s).length < n) :
    unquoteAux n (quoteAux s.length s ++ 0x22 :: rest) = some (s, rest) := by
  induction k generalizing s n with
  | zero =>
    have : s = [] := List.eq_nil_of_length_eq_zero (by omega)
    subst this
    rcases n with _ | n
    · simp at hn
    · simp [quoteAux, unquoteAux]
  | succ k ih =>
    rcases s with _ | ⟨b, s1⟩
    · rcases n with _ | n
      · simp at hn
      · simp [quoteAux, unquoteAux]
    · obtain ⟨hd, hv1⟩ := validUTF8_cons b s1 hv
      simp only [List.length_cons] at hk
      rw [quoteAux_cons] at hn ⊢
      rcases n with _ | n
      · simp at hn
      by_cases hb : b.val < 0x80
      · rw [if_pos hb] at hn ⊢
        have hw : decodeRune (b :: s1) = (b.val, 1) := by
          simp only [decodeRune, hb, if_true]
        rw [hw] at hv1
        simp only [Nat.sub_self, List.drop_zero] at hv1
        have hl := quoteAscii_length_pos b
        rw [List.length_append] at hn
        rw [List.append_assoc, unquoteAux_quoteAscii b hb,
          ih s1 (by omega) n hv1 (by omega)]
      · rw [if_neg hb, if_neg hd] at hn ⊢
        have hdl : (s1.drop ((decodeRune (b :: s1)).2 - 1)).length ≤ k := by
          simp only [List.length_drop]
          omega
        have hw1 := decodeRune_width_pos b s1
        have henc := encodeRune_decodeRune b s1 (by omega) hd
        have q1 : ¬ b = 0x22 := by
          intro h; rw [h] at hb; exact hb (by decide)
        have q2 : ¬ b = 0x5C := by
          intro h; rw [h] at hb; exact hb (by decide)
        have q3 : ¬ b.val < 0x20 := by omega
        have hsplit : (b :: s1).take (decodeRune (b :: s1)).2 ++
            s1.drop ((decodeRune (b :: s1)).2 - 1) = b :: s1 := by
          have : (b :: s1).drop (decodeRune (b :: s1)).2 =
              s1.drop ((decodeRune (b :: s1)).2 - 1) := by
            obtain ⟨w, hw⟩ : ∃ w, (decodeRune (b :: s1)).2 = w + 1 := ⟨_, (Nat.sub_add_cancel hw1).symm⟩
            rw [hw]
            simp
          rw [← this, List.take_append_drop]
        by_cases hsep : (decodeRune (b :: s1)).1 = 0x2028 ∨ (decodeRune (b :: s1)).1 = 0x2029
        · rw [if_pos hsep] at hn ⊢
          rw [List.length_append] at hn
          simp only [List.length_cons, List.length_nil] at hn
          have hx : getu4 (0x32 :: 0x30 :: 0x32 :: hexDigit ((decodeRune (b :: s1)).1 % 16) ::
              (quoteAux (s1.drop ((decodeRune (b :: s1)).2 - 1)).length
                (s1.drop ((decodeRune (b :: s1)).2 - 1)) ++ 0x22 :: rest))
              = some ((decodeRune (b :: s1)).1, quoteAux (s1.drop ((decodeRune (b :: s1)).2 - 1)).length
                (s1.drop ((decodeRune (b :: s1)).2 - 1)) ++ 0x22 :: rest) := by
            have e0 : hexValue 0x30 = some 0 := rfl
            have e2 : hexValue 0x32 = some 2 := rfl
            simp only [getu4, e0, e2, hexValue_hexDigit ((decodeRune (b :: s1)).1 % 16) (by omega)]
            congr 2
            omega
          have c1 : ¬ ((0x75 : Byte) = 0x22 ∨ (0x75 : Byte) = 0x5C ∨ (0x75 : Byte) = 0x2F) := by
            decide
          have c2 : ¬ (0x75 : Byte) = 0x62 := by decide
          have c3 : ¬ (0x75 : Byte) = 0x66 := by decide
          have c4 : ¬ (0x75 : Byte) = 0x6E := by decide
          have c5 : ¬ (0x75 : Byte) = 0x72 := by decide
          have c6 : ¬ (0x75 : Byte) = 0x74 := by decide
          have c7 : ¬ (0xD800 ≤ (decodeRune (b :: s1)).1 ∧ (decodeRune (b :: s1)).1 < 0xE000) := by
            omega
          have p1 : ¬ (0x5C : Byte) = 0x22 := by decide
          change unquoteAux (n + 1) (0x5C :: 0x75 :: 0x32 :: 0x30 :: 0x32 ::
            hexDigit ((decodeRune (b :: s1)).1 % 16) ::
            (quoteAux (s1.drop ((decodeRune (b :: s1)).2 - 1)).length
              (s1.drop ((decodeRune (b :: s1)).2 - 1)) ++ 0x22 :: rest)) = _
          simp only [unquoteAux, p1, if_false, if_true, unescape, c1, c2, c3, c4, c5, c6, hx, c7]
          rw [ih _ hdl n hv1 (by omega), henc]
          simp only
          rw [hsplit]
        · rw [if_neg hsep] at hn ⊢
          rw [List.length_append] at hn
          have htk : (b :: s1).take (decodeRune (b :: s1)).2 =
              b :: s1.take ((decodeRune (b :: s1)).2 - 1) := by
            obtain ⟨w, hw⟩ : ∃ w, (decodeRune (b :: s1)).2 = w + 1 := ⟨_, (Nat.sub_add_cancel hw1).symm⟩
            rw [hw]
            simp
          have hdec : decodeRune ((b :: s1).take (decodeRune (b :: s1)).2 ++
              (quoteAux (s1.drop ((decodeRune (b :: s1)).2 - 1)).length
                (s1.drop ((decodeRune (b :: s1)).2 - 1)) ++ 0x22 :: rest)) = decodeRune (b :: s1) := by
            rw [decodeRune_append _ _ (by rw [htk]; exact List.cons_ne_nil _ _)
              (by rw [decodeRune_take b s1 hd]; exact hd), decodeRune_take b s1 hd]
          rw [List.append_assoc]
          rw [htk] at hdec hn ⊢
          simp only [List.cons_append] at hdec ⊢
          have hlen : (s1.take ((decodeRune (b :: s1)).2 - 1)).length = (decodeRune (b :: s1)).2 - 1 := by
            have := decodeRune_width_le (b :: s1)
            simp only [List.length_cons] at this
            rw [List.length_take]
            omega
          simp only [unquoteAux, q1, q2, q3, hb, if_false, hdec]
          rw [List.drop_left' hlen, ih _ hdl n hv1 (by simp only [List.length_cons] at hn; omega),
            henc, htk]
          simp only
          rw [← htk, hsplit]

/-- A string value written by `json.Marshal` is read back, when it is valid UTF-8. -/
theorem unmarshalString_marshalString (s rest : GoString) (hv : validUTF8 s = true) :
    unmarshalString (marshalString s ++ rest) = some (s, rest) := by
  unfold marshalString unmarshalString
  simp only [List.cons_append, List.append_assoc, List.singleton_append]
  apply unquoteAux_quoteAux s.length s (Nat.le_refl _) _ rest hv
  simp


/-! ### Integers in a JSON document -/

/-- The loop of `strconv.AppendInt` writes the digits of the number. -/
theorem decimalAux_eq (fuel n : Nat) (acc : GoString) (hf : n < fuel) (hn : 0 < n) :
    decimalAux fuel n acc =
      ((Nat.digits 10 n).map (fun d => (Fin.ofNat (0x30 + d) : Byte))).reverse ++ acc := by
  induction fuel generalizing n acc with
  | zero => omega
  | succ fuel ih =>
    unfold decimalAux
    by_cases h10 : n < 10
    · rw [if_pos h10, Nat.digits_of_lt 10 n (by omega) h10]
      rfl
    · rw [if_neg h10, ih (n / 10) _ (by omega) (by omega),
        Nat.digits_def' (by omega : 1 < 10) hn]
      simp

/-- The decimal numeral of a number: "0", or its digits from the most significant. -/
theorem decimal_eq (n : Nat) :
    decimal n = if n = 0 then [0x30]
      else ((Nat.digits 10 n).map (fun d => (Fin.ofNat (0x30 + d) : Byte))).reverse := by
  unfold decimal
  by_cases h0 : n = 0
  · subst h0
    rfl
  · rw [if_neg h0, decimalAux_eq (n + 1) n [] (by omega) (by omega), List.append_nil]

/-- The bytes of a decimal numeral are digits. -/
theorem decimal_digits (n : Nat) : ∀ c ∈ decimal n, isDigit c = true := by
  intro c hc
  rw [decimal_eq] at hc
  split_ifs at hc with h0
  · simp only [List.mem_singleton] at hc
    subst hc
    rfl
  · simp only [List.mem_reverse, List.mem_map] at hc
    obtain ⟨d, hd, rfl⟩ := hc
    have := Nat.digits_lt_base (by omega : 1 < 10) hd
    unfold isDigit
    rw [decide_eq_true_iff]
    simp only [Fin.ofNat]
    omega

/-- A decimal numeral is not empty. -/
theorem decimal_ne_nil (n : Nat) : decimal n ≠ [] := by
  rw [decimal_eq]
  split_ifs with h0
  · exact List.cons_ne_nil _ _
  · intro h
    simp only [List.reverse_eq_nil_iff, List.map_eq_nil_iff] at h
    exact (Nat.digits_ne_nil_iff_ne_zero.mpr h0) h

/-- A decimal numeral of more than one digit has no leading zero. -/
theorem decimal_no_leading_zero (n : Nat) :
    ¬ ((decimal n).head? = some 0x30 ∧ (decimal n).length > 1) := by
  rw [decimal_eq]
  split_ifs with h0
  · simp
  · rintro ⟨hh, _⟩
    rw [List.head?_reverse] at hh
    have hne : Nat.digits 10 n ≠ [] := Nat.digits_ne_nil_iff_ne_zero.mpr h0
    have hl := Nat.getLast_digit_ne_zero 10 h0
    have hmem := Nat.digits_lt_base (by omega : 1 < 10) (List.getLast_mem hne)
    rw [List.getLast?_map, List.getLast?_eq_getLast _ hne] at hh
    simp only [Option.map_some', Option.some.injEq] at hh
    have := congrArg Fin.val hh
    simp only [Fin.ofNat] at this
    have h48 : ((0x30 : Byte) : Nat) = 48 := rfl
    rw [h48] at this
    omega

/-- The value of the digits of a decimal numeral, read from the most significant. -/
theorem digitsValue_reverse_map (l : List Nat) (hl : ∀ d ∈ l, d < 10) :
    digitsValue ((l.map (fun d => (Fin.ofNat (0x30 + d) : Byte))).reverse) = Nat.ofDigits 10 l := by
  unfold digitsValue
  rw [List.foldl_reverse]
  induction l with
  | nil => rfl
  | cons d tl ih =>
    have hd := hl d (List.mem_cons_self _ _)
    simp only [List.map_cons, List.foldr_cons, Nat.ofDigits_cons]
    rw [ih (fun x hx => hl x (List.mem_cons_of_mem _ hx))]
    simp only [Fin.ofNat]
    omega

/-- The value of a decimal numeral. -/
theorem digitsValue_decimal (n : Nat) : digitsValue (decimal n) = n := by
  rw [decimal_eq]
  split_ifs with h0
  · subst h0
    rfl
  · rw [digitsValue_reverse_map _ (fun d hd => Nat.digits_lt_base (by omega) hd),
      Nat.ofDigits_digits]

/-- An `int64` written by `json.Marshal` before a closing brace is read back. -/
theorem unmarshalInt_marshalInt (v : Int) (rest : GoString) (hv : IsInt64 v) :
    unmarshalInt (marshalInt v ++ 0x7D :: rest) = some (v, 0x7D :: rest) := by
  have hnb : isDigit 0x7D = false := rfl
  have htw : ∀ n, (decimal n ++ 0x7D :: rest).takeWhile isDigit = decimal n := by
    intro n
    rw [List.takeWhile_append_of_pos (decimal_digits n)]
    simp [List.takeWhile, hnb]
  have hdw : ∀ n, (decimal n ++ 0x7D :: rest).dropWhile isDigit = 0x7D :: rest := by
    intro n
    rw [List.dropWhile_append_of_pos (decimal_digits n)]
    simp [List.dropWhile, hnb]
  have hr : ¬ ((0x7D :: rest).head? = some 0x2E ∨ (0x7D :: rest).head? = some 0x65 ∨
      (0x7D :: rest).head? = some 0x45) := by
    simp only [List.head?_cons, Option.some.injEq]
    decide
  unfold IsInt64 at hv
  unfold marshalInt unmarshalInt
  by_cases hneg : v < 0
  · rw [if_pos hneg]
    simp only [List.cons_append, List.head?_cons, if_true, List.drop_succ_cons, List.drop_zero,
      htw, hdw, decimal_ne_nil, if_false, decimal_no_leading_zero, hr, digitsValue_decimal]
    have e : -((v.natAbs : Nat) : Int) = v := by omega
    have hr2 : ¬ (some (0x7D : Byte) = some 0x2E ∨ some (0x7D : Byte) = some 0x65 ∨
        some (0x7D : Byte) = some 0x45) := by decide
    rw [e, if_pos hv, if_neg hr2]
  · rw [if_neg hneg]
    have hhead : ¬ (decimal v.natAbs ++ 0x7D :: rest).head? = some 0x2D := by
      rcases hdec : decimal v.natAbs with _ | ⟨c, tl⟩
      · exact absurd hdec (decimal_ne_nil _)
      · simp only [List.cons_append, List.head?_cons, Option.some.injEq]
        intro hc
        have := decimal_digits v.natAbs c (by rw [hdec]; exact List.mem_cons_self _ _)
        rw [hc] at this
        exact absurd this (by decide)
    simp only [hhead, if_false, htw, hdw, decimal_ne_nil, decimal_no_leading_zero, hr,
      digitsValue_decimal]
    have e : ((v.natAbs : Nat) : Int) = v := by omega
    rw [e, if_pos hv]

/-- The bytes expected at the head of the input are consumed. -/
theorem expect_append (bytes rest : GoString) : expect bytes (bytes ++ rest) = some rest := by
  unfold expect
  rw [if_pos (List.isPrefixOf_iff_prefix.mpr (List.prefix_append _ _)), List.drop_left]


/-! ### Maps in a JSON document -/

/-- One expected byte at the head of the input is consumed. -/
theorem expect_cons (b : Byte) (rest : GoString) : expect [b] (b :: rest) = some rest :=
  expect_append [b] rest

/-- A quoted string starts with a quote. -/
theorem marshalString_eq (s : GoString) :
    marshalString s = 0x22 :: (quoteAux s.length s ++ [0x22]) := rfl

/-- What the decoder does with one member followed by a comma. -/
theorem unmarshalMembers_step_comma {V : Type} (enc : V → GoString)
    (dec : GoString → Option (V × GoString)) (f : V → V) (k : GoString) (v : V)
    (hk : validUTF8 k = true) (hdec : ∀ rest, dec (enc v ++ rest) = some (f v, rest))
    (n : Nat) (input : GoString) (acc : GoMap V) :
    unmarshalMembers dec (n + 1) (marshalString k ++ [0x3A] ++ enc v ++ [0x2C] ++ input) acc =
      unmarshalMembers dec n input (acc.insert k (f v)) := by
  simp only [List.append_assoc, List.singleton_append]
  simp only [unmarshalMembers, unmarshalString_marshalString k _ hk, List.cons_append,
    expect_cons, hdec]

/-- What the decoder does with the last member and the closing brace. -/
theorem unmarshalMembers_step_close {V : Type} (enc : V → GoString)
    (dec : GoString → Option (V × GoString)) (f : V → V) (k : GoString) (v : V)
    (hk : validUTF8 k = true) (hdec : ∀ rest, dec (enc v ++ rest) = some (f v, rest))
    (n : Nat) (rest : GoString) (acc : GoMap V) :
    unmarshalMembers dec (n + 1) (marshalString k ++ [0x3A] ++ enc v ++ 0x7D :: rest) acc =
      some (acc.insert k (f v), rest) := by
  simp only [List.append_assoc, List.singleton_append]
  simp only [unmarshalMembers, unmarshalString_marshalString k _ hk, List.cons_append,
    expect_cons, hdec]

/-- The members written by `json.Marshal` are read back and stored in order. -/
theorem unmarshalMembers_marshalMembers {V : Type} (enc : V → GoString)
    (dec : GoString → Option (V × GoString)) (f : V → V)
    (es : List (Sigma (fun _ : GoString => V))) (hes : es ≠ [])
    (hk : ∀ e ∈ es, validUTF8 e.1 = true)
    (hdec : ∀ e ∈ es, ∀ rest, dec (enc e.2 ++ rest) = some (f e.2, rest))
    (n : Nat) (hn : es.length ≤ n) (rest : GoString) (acc : GoMap V) :
    unmarshalMembers dec n (marshalMembers enc es ++ 0x7D :: rest) acc =
      some (es.foldl (fun a e => a.insert e.1 (f e.2)) acc, rest) := by
  induction es generalizing n acc with
  | nil => exact absurd rfl hes
  | cons e tl ih =>
    rcases n with _ | n
    · simp at hn
    rcases tl with _ | ⟨e2, tl2⟩
    · simp only [marshalMembers, List.foldl_cons, List.foldl_nil]
      exact unmarshalMembers_step_close enc dec f e.1 e.2 (hk e (List.mem_cons_self _ _))
        (hdec e (List.mem_cons_self _ _)) n rest acc
    · simp only [marshalMembers, List.foldl_cons]
      rw [List.append_assoc, unmarshalMembers_step_comma enc dec f e.1 e.2
        (hk e (List.mem_cons_self _ _)) (hdec e (List.mem_cons_self _ _))]
      rw [ih (List.cons_ne_nil _ _) (fun x hx => hk x (List.mem_cons_of_mem _ hx))
        (fun x hx => hdec x (List.mem_cons_of_mem _ hx)) n
        (by simp only [List.length_cons] at hn ⊢; omega)]
      simp only [List.foldl_cons]

/-- Every member takes at least one byte. -/
theorem length_le_marshalMembers {V : Type} (enc : V → GoString)
    (es : List (Sigma (fun _ : GoString => V))) :
    es.length ≤ (marshalMembers enc es).length := by
  induction es with
  | nil => simp [marshalMembers]
  | cons e tl ih =>
    rcases tl with _ | ⟨e2, tl2⟩
    · simp [marshalMembers, marshalString_eq]
    · simp only [marshalMembers, List.length_append, List.length_cons, marshalString_eq] at ih ⊢
      omega

/-- The members of a map that is not empty start with a quote. -/
theorem marshalMembers_head {V : Type} (enc : V → GoString)
    (es : List (Sigma (fun _ : GoString => V))) (hes : es ≠ []) :
    ∃ tl, marshalMembers enc es = 0x22 :: tl := by
  rcases es with _ | ⟨e, _ | ⟨e2, tl2⟩⟩
  · exact absurd rfl hes
  · exact ⟨_, rfl⟩
  · exact ⟨_, rfl⟩

/-- The entries in the order of their keys are the entries of the map. -/
theorem sortedEntries_perm {V : Type} (m : GoMap V) : (sortedEntries m).Perm m.entries :=
  List.perm_insertionSort _ _

/-- An entry written by `json.Marshal` is an entry of the map. -/
theorem lookup_of_mem_sortedEntries {V : Type} (m : GoMap V)
    (e : Sigma (fun _ : GoString => V)) (he : e ∈ sortedEntries m) :
    m.lookup e.1 = some e.2 := by
  have : e ∈ m.entries := (sortedEntries_perm m).subset he
  have h : (⟨e.1, e.2⟩ : Sigma (fun _ : GoString => V)) ∈ m.entries := this
  exact AList.mem_lookup_iff.mpr h

/-- A map written by `json.Marshal` is read back as the map rebuilt from its entries. -/
theorem unmarshalMap_marshalMap {V : Type} (enc : V → GoString)
    (dec : GoString → Option (V × GoString)) (f : V → V) (m : GoMap V)
    (hk : ∀ k v, m.lookup k = some v → validUTF8 k = true)
    (hdec : ∀ k v, m.lookup k = some v → ∀ rest, dec (enc v ++ rest) = some (f v, rest))
    (rest : GoString) :
    unmarshalMap dec (marshalMap enc m ++ rest) = some (rebuildMap f m, rest) := by
  unfold marshalMap rebuildMap
  by_cases hes : sortedEntries m = []
  · rw [hes]
    simp [marshalMembers, unmarshalMap]
  · obtain ⟨tl, htl⟩ := marshalMembers_head enc (sortedEntries m) hes
    have hlen := length_le_marshalMembers enc (sortedEntries m)
    have key := unmarshalMembers_marshalMembers enc dec f (sortedEntries m) hes
      (fun e he => hk e.1 e.2 (lookup_of_mem_sortedEntries m e he))
      (fun e he => hdec e.1 e.2 (lookup_of_mem_sortedEntries m e he))
      (marshalMembers enc (sortedEntries m) ++ 0x7D :: rest).length
      (by rw [List.length_append]; omega) rest ∅
    have hshape : [0x7B] ++ marshalMembers enc (sortedEntries m) ++ [0x7D] ++ rest =
        0x7B :: (marshalMembers enc (sortedEntries m) ++ 0x7D :: rest) := by
      simp
    rw [hshape]
    rw [htl] at key ⊢
    simp only [List.cons_append] at key ⊢
    have q : ¬ (0x22 : Byte) = 0x7D := by decide
    simp only [unmarshalMap]
    exact key

/-- What the rebuilt map holds at a key. -/
theorem lookup_foldl_insert {V : Type} (f : V → V) (es : List (Sigma (fun _ : GoString => V)))
    (hnd : es.NodupKeys) (acc : GoMap V) (k : GoString) :
    (es.foldl (fun a e => a.insert e.1 (f e.2)) acc).lookup k =
      match es.dlookup k with
      | some v => some (f v)
      | none => acc.lookup k := by
  induction es generalizing acc with
  | nil => rfl
  | cons e tl ih =>
    obtain ⟨hnotin, hnd2⟩ := List.nodupKeys_cons.mp hnd
    rw [List.foldl_cons, ih hnd2]
    by_cases hke : k = e.1
    · subst hke
      have h1 : List.dlookup e.1 tl = none := List.dlookup_eq_none.mpr hnotin
      have h2 : List.dlookup e.1 (e :: tl) = some e.2 := by
        rcases e with ⟨a, b⟩
        exact List.dlookup_cons_eq _ _ _
      rw [h1, h2]
      simp only
      exact AList.lookup_insert _
    · rw [List.dlookup_cons_ne _ _ hke]
      cases List.dlookup k tl with
      | some v => rfl
      | none =>
        simp only
        exact AList.lookup_insert_ne hke

/-- The rebuilt map holds what the decoder makes of every value of the map. -/
theorem lookup_rebuildMap {V : Type} (f : V → V) (m : GoMap V) (k : GoString) :
    (rebuildMap f m).lookup k = (m.lookup k).map f := by
  unfold rebuildMap
  have hp := sortedEntries_perm m
  have hnd : (sortedEntries m).NodupKeys := (List.perm_nodupKeys hp).mpr m.nodupKeys
  rw [lookup_foldl_insert f _ hnd, List.perm_dlookup k hnd m.nodupKeys hp]
  show _ = (m.lookup k).map f
  have : m.lookup k = List.dlookup k m.entries := rfl
  rw [this]
  cases List.dlookup k m.entries <;> rfl

/-! ### Pages, seeds and the store -/

/-- A `Page` written by `json.Marshal` is read back, when its strings are valid UTF-8. -/
theorem unmarshalPage_marshalPage (p : Page) (hp : p.Valid) (rest : GoString) :
    unmarshalPage (marshalPage p ++ rest) = some (rebuildPage p, rest) := by
  obtain ⟨h1, h2, h3, h4, h5⟩ := hp
  have hm := unmarshalMap_marshalMap marshalString unmarshalString id p.Links
    (fun k v hkv => (h4 k v hkv).1)
    (fun k v hkv r => unmarshalString_marshalString v r (h4 k v hkv).2)
  unfold marshalPage unmarshalPage
  simp only [List.append_assoc, List.singleton_append, expect_append, Option.bind_eq_bind,
    Option.some_bind, unmarshalString_marshalString _ _ h1, unmarshalString_marshalString _ _ h2,
    unmarshalString_marshalString _ _ h3, hm, unmarshalInt_marshalInt _ _ h5, expect_cons]
  rfl

/-- A `SeedSite` written by `json.Marshal` is read back, when its string is valid UTF-8. -/
theorem unmarshalSeedSite_marshalSeedSite (s : SeedSite) (hs : s.Valid) (rest : GoString) :
    unmarshalSeedSite (marshalSeedSite s ++ rest) = some (s, rest) := by
  obtain ⟨h1, h2⟩ := hs
  unfold marshalSeedSite unmarshalSeedSite
  simp only [List.append_assoc, List.singleton_append, expect_append, Option.bind_eq_bind,
    Option.some_bind, unmarshalString_marshalString _ _ h1, unmarshalInt_marshalInt _ _ h2,
    expect_cons]

/-- A map of the store written by `json.Marshal`, `null` for a nil map, is read back
as a nil map or as the map rebuilt from its entries. -/
theorem unmarshalMapOrNull_marshalMapOrNull {V : Type} (enc : V → GoString)
    (dec : GoString → Option (V × GoString)) (f : V → V) (o : Option (GoMap V))
    (hk : ∀ m, o = some m → ∀ k v, m.lookup k = some v → validUTF8 k = true)
    (hdec : ∀ m, o = some m → ∀ k v, m.lookup k = some v →
      ∀ rest, dec (enc v ++ rest) = some (f v, rest))
    (rest : GoString) :
    unmarshalMapOrNull dec (marshalMapOrNull enc o ++ rest) =
      some (o.map (rebuildMap f), rest) := by
  cases o with
  | none =>
    simp [unmarshalMapOrNull, marshalMapOrNull, nullLiteral, List.isPrefixOf]
  | some m =>
    have hm := unmarshalMap_marshalMap enc dec f m (hk m rfl) (hdec m rfl) rest
    have hnot : nullLiteral.isPrefixOf (marshalMap enc m ++ rest) = false := by
      simp [marshalMap, nullLiteral, List.isPrefixOf]
    simp only [unmarshalMapOrNull, marshalMapOrNull, hnot, Bool.false_eq_true, if_false, hm,
      Option.map_some']

/-- The snapshot of a store is not the document without members. -/
theorem marshalData_ne_empty (d : ScraperData) : marshalData d ≠ [0x7B, 0x7D] := by
  intro h
  have h1 : (marshalData d).get? 1 = some 0x22 := by
    simp [marshalData, firstField, fieldName]
  rw [h] at h1
  exact absurd h1 (by decide)

/-- The store written by `json.Marshal` is read back as the store rebuilt from its
entries, a nil map as a nil map. -/
theorem unmarshalData_marshalData (d : ScraperData) (hd : d.Valid) :
    unmarshalData (marshalData d) =
      some { Pages := d.Pages.map (rebuildMap rebuildPage),
             Watchlist := d.Watchlist.map (rebuildMap id) } := by
  obtain ⟨hp, hw⟩ := hd
  have hpage : ∀ m, d.Pages = some m → ∀ k v, m.lookup k = some v → d.page k = some v := by
    intro m hm k v hkv
    simp only [ScraperData.page, hm, hkv]
  have hseed : ∀ m, d.Watchlist = some m → ∀ k v, m.lookup k = some v → d.seed k = some v := by
    intro m hm k v hkv
    simp only [ScraperData.seed, hm, hkv]
  have hm1 := unmarshalMapOrNull_marshalMapOrNull marshalPage unmarshalPage rebuildPage d.Pages
    (fun m hm k v hkv => (hp k v (hpage m hm k v hkv)).1)
    (fun m hm k v hkv r => unmarshalPage_marshalPage v (hp k v (hpage m hm k v hkv)).2 r)
  have hm2 := unmarshalMapOrNull_marshalMapOrNull marshalSeedSite unmarshalSeedSite id
    d.Watchlist
    (fun m hm k v hkv => (hw k v (hseed m hm k v hkv)).1)
    (fun m hm k v hkv r => unmarshalSeedSite_marshalSeedSite v (hw k v (hseed m hm k v hkv)).2 r)
  have hne := marshalData_ne_empty d
  unfold unmarshalData
  rw [if_neg hne]
  unfold marshalData
  simp only [List.append_assoc, List.singleton_append, expect_append, Option.bind_eq_bind,
    Option.some_bind, hm1, hm2, expect_cons, if_true]


/-- A Page as the decoder returns it is the Page, field by field. -/
theorem rebuildPage_same (p : Page) : (rebuildPage p).Same p := by
  refine ⟨rfl, rfl, rfl, rfl, ?_⟩
  intro k
  show (rebuildMap id p.Links).lookup k = _
  rw [lookup_rebuildMap]
  cases p.Links.lookup k <;> rfl

/-- The store as the decoder returns it is the store, key by key and field by field. -/
theorem rebuild_same (d : ScraperData) :
    ScraperData.Same
      { Pages := d.Pages.map (rebuildMap rebuildPage),
        Watchlist := d.Watchlist.map (rebuildMap id) } d := by
  refine ⟨?_, ?_, ?_, ?_⟩
  · intro k
    cases hm : d.Pages with
    | none =>
      simp only [ScraperData.page, hm, Option.map_none']
    | some m =>
      simp only [ScraperData.page, hm, Option.map_some']
      rw [lookup_rebuildMap]
      cases m.lookup k with
      | none => trivial
      | some p => exact rebuildPage_same p
  · intro k
    cases hm : d.Watchlist with
    | none =>
      simp only [ScraperData.seed, hm, Option.map_none']
    | some m =>
      simp only [ScraperData.seed, hm, Option.map_some']
      rw [lookup_rebuildMap]
      cases m.lookup k <;> rfl
  · cases d.Pages <;> rfl
  · cases d.Watchlist <;> rfl

/-- C9 as stated fails: a Page whose Title is the byte "A" followed by the byte 0xFF,
which is no valid UTF-8, is written with the Title "A\ufffd" and read back with the
Title "A" followed by the three bytes of U+FFFD; the decoded store differs from the
one that was saved. -/
theorem snapshot_changes_invalid_utf8 :
    ((unmarshalData (marshalData
        { Pages := some ((∅ : GoMap Page).insert (lit "http://a/")
            { URL := lit "http://a/", Summary := [], Title := [0x41, 0xFF], Links := ∅,
              Time := 7 }),
          Watchlist := some ∅ })).bind (fun d => d.page (lit "http://a/"))).map
            (fun p => p.Title) = some [0x41, 0xEF, 0xBF, 0xBD] ∧
    ¬ ∃ d, unmarshalData (marshalData
        { Pages := some ((∅ : GoMap Page).insert (lit "http://a/")
            { URL := lit "http://a/", Summary := [], Title := [0x41, 0xFF], Links := ∅,
              Time := 7 }),
          Watchlist := some ∅ }) = some d ∧
      d.Same
        { Pages := some ((∅ : GoMap Page).insert (lit "http://a/")
            { URL := lit "http://a/", Summary := [], Title := [0x41, 0xFF], Links := ∅,
              Time := 7 }),
          Watchlist := some ∅ } := by
  have h1 : ((unmarshalData (marshalData
        { Pages := some ((∅ : GoMap Page).insert (lit "http://a/")
            { URL := lit "http://a/", Summary := [], Title := [0x41, 0xFF], Links := ∅,
              Time := 7 }),
          Watchlist := some ∅ })).bind (fun d => d.page (lit "http://a/"))).map
            (fun p => p.Title) = some [0x41, 0xEF, 0xBF, 0xBD] := by decide
  refine ⟨h1, ?_⟩
  rintro ⟨d, hd, hsame⟩
  rw [hd] at h1
  have h2 := hsame.1 (lit "http://a/")
  simp only [Option.some_bind] at h1
  have h4 : ScraperData.page
      { Pages := some ((∅ : GoMap Page).insert (lit "http://a/")
          { URL := lit "http://a/", Summary := [], Title := [0x41, 0xFF], Links := ∅,
            Time := 7 }),
        Watchlist := some ∅ } (lit "http://a/") =
      some { URL := lit "http://a/", Summary := [], Title := [0x41, 0xFF], Links := ∅,
             Time := 7 } := AList.lookup_insert _
  rw [h4] at h2
  cases hl : d.page (lit "http://a/") with
  | none => rw [hl] at h1; cases h1
  | some p =>
    rw [hl] at h1 h2
    simp only [Option.map_some', Option.some.injEq] at h1
    have h3 : p.Title = [0x41, 0xFF] := h2.2.2.1
    rw [h1] at h3
    exact absurd h3 (by decide)

/-- C9, amended: for every store whose strings, the keys of the maps included, are
valid UTF-8, decoding the bytes `ToJSON` (and so `Save`) produces succeeds and yields
a store equal to it key by key and field by field; `Load` installs that store. -/
theorem snapshot_roundtrip {R : Type} (i : Scraper R) (hv : i.data.Valid) :
    ∃ d, unmarshalData (ToJSON i) = some d ∧ d.Same i.data ∧
      ∀ j : Scraper R, j.config.SaveFile ≠ [] →
        (Load unmarshalData (some (ToJSON i)) j).data = d := by
  refine ⟨_, unmarshalData_marshalData i.data hv, rebuild_same i.data, ?_⟩
  intro j hj
  unfold Load
  rw [if_neg hj]
  simp only [ToJSON, unmarshalData_marshalData i.data hv]


/-! ### Instances -/

/-- What a map of one entry holds. -/
theorem lookup_insert_empty {V : Type} (k0 : GoString) (v0 : V) (k : GoString) (v : V)
    (h : ((∅ : GoMap V).insert k0 v0).lookup k = some v) : k = k0 ∧ v = v0 := by
  by_cases hk : k = k0
  · subst hk
    rw [AList.lookup_insert] at h
    exact ⟨rfl, (Option.some.inj h).symm⟩
  · rw [AList.lookup_insert_ne hk] at h
    simp at h

/-- The Page of `exampleStore` at the URL of `exampleContext`. -/
theorem exampleStore_page : exampleStore.page exampleContext.url = some examplePage :=
  AList.lookup_insert _

/-- C3 at the anchor "Docs" to "https://example.com/page?x=1": recorded and followed. -/
theorem onAnchor_records_iff_witness :
    ∃ d1 target p1,
      recordLink exampleContext (lit "Docs") (lit "https://example.com/page?x=1")
        exampleStore = some (d1, [target]) ∧
      d1.page exampleContext.url = some p1 ∧
      p1.Links.lookup (normalize (lit "Docs")) = some (lit "https://example.com/page?x=1") ∧
      ∀ (visit : GoString → Crawl → Option Crawl) (requests : List GoString),
        onAnchor visit (lit "Docs") (lit "https://example.com/page?x=1")
            { data := exampleStore, ctx := exampleContext, requests := requests } =
          visit target { data := d1, ctx := exampleContext, requests := requests } :=
  (onAnchor_records_iff exampleStore exampleContext (lit "Docs")
      (lit "https://example.com/page?x=1")).1
    ⟨by decide, (stringsContains_iff _ _).mp (by decide), ⟨0x44, by decide, by decide⟩,
      by decide⟩
    examplePage exampleStore_page

/-- C5, amended, at the anchor text "Go": nothing is recorded or followed. -/
theorem onAnchor_short_text_witness :
    (normalize (lit "Go")).length ≤ 3 ∧
    recordLink exampleContext (lit "Go") (lit "https://example.com/page?x=1") exampleStore =
      some (exampleStore, []) ∧
    ∀ (visit : GoString → Crawl → Option Crawl) (requests : List GoString),
      onAnchor visit (lit "Go") (lit "https://example.com/page?x=1")
          { data := exampleStore, ctx := exampleContext, requests := requests } =
        some { data := exampleStore, ctx := exampleContext, requests := requests } :=
  ⟨by decide, onAnchor_short_text exampleStore exampleContext (lit "Go")
    (lit "https://example.com/page?x=1") (by decide)⟩

/-- C6 at one `h1` "Intro" then one `p` "Body text": the Summary is "Intro Body text ". -/
theorem onTexts_summary_witness :
    exampleStore.page exampleContext.url = some examplePage ∧
    ∃ d1 p1,
      onTexts exampleContext
        [(TextTag.h1, lit "Intro"), (TextTag.p, lit "Body text")] exampleStore = some d1 ∧
      d1.page exampleContext.url = some p1 ∧
      p1.Summary = lit "Intro Body text " := by
  refine ⟨exampleStore_page, ?_⟩
  obtain ⟨d1, p1, h1, h2, h3, _⟩ :=
    (onTexts_summary exampleContext
      [(TextTag.h1, lit "Intro"), (TextTag.p, lit "Body text")] exampleStore examplePage
      exampleStore_page).1
  refine ⟨d1, p1, h1, h2, ?_⟩
  rw [h3]
  decide

/-- C8, amended, at the text " a", a run of space, tab, line feed and space, "b ": the
run becomes one space and the ends are stripped. -/
theorem normalize_whitespace_witness :
    spaceReplaceAll ([0x20, 0x61] ++ [0x20, 0x09, 0x0A, 0x20] ++ [0x62, 0x20]) =
      spaceReplaceAll [0x20, 0x61] ++ 0x20 :: spaceReplaceAll [0x62, 0x20] ∧
    normalize ([0x20, 0x61] ++ [0x20, 0x09, 0x0A, 0x20] ++ [0x62, 0x20]) = [0x61, 0x20, 0x62] :=
  ⟨(normalize_whitespace ([0x20, 0x61] ++ [0x20, 0x09, 0x0A, 0x20] ++ [0x62, 0x20])).2.2.2.2.1
      [0x20, 0x61] [0x20, 0x09, 0x0A, 0x20] [0x62, 0x20] rfl (List.cons_ne_nil _ _)
      (by
        intro b hb
        simp only [List.mem_cons, List.mem_singleton, List.not_mem_nil, or_false] at hb
        rcases hb with rfl | rfl | rfl | rfl <;> decide)
      (fun b h => by cases h; decide) (fun b h => by cases h; decide),
    by decide⟩

/-- The strings of `exampleScraper` are valid UTF-8. -/
theorem exampleScraper_valid : exampleScraper.data.Valid := by
  constructor
  · intro k p h
    have h0 : ((∅ : GoMap Page).insert (lit "https://example.com/") exampleCrawled).lookup k =
        some p := h
    obtain ⟨rfl, rfl⟩ := lookup_insert_empty _ _ _ _ h0
    refine ⟨by decide, by decide, by decide, by decide, ?_, by unfold IsInt64; decide⟩
    intro k v hl
    obtain ⟨rfl, rfl⟩ := lookup_insert_empty _ _ _ _ hl
    exact ⟨by decide, by decide⟩
  · intro k s h
    have h0 : ((∅ : GoMap SeedSite).insert (lit "https://example.com/")
        { Site := lit "https://example.com/", LastCheck := 1700000000 }).lookup k = some s := h
    obtain ⟨rfl, rfl⟩ := lookup_insert_empty _ _ _ _ h0
    exact ⟨by decide, by decide, by unfold IsInt64; decide⟩

/-- C9, amended, at `exampleScraper`: its snapshot is read back as an equal store,
which `Load` installs. -/
theorem snapshot_roundtrip_witness :
    exampleScraper.data.Valid ∧
    ∃ d, unmarshalData (ToJSON exampleScraper) = some d ∧ d.Same exampleScraper.data ∧
      (Load unmarshalData (some (ToJSON exampleScraper)) exampleFresh).data = d :=
  ⟨exampleScraper_valid,
    let ⟨d, h1, h2, h3⟩ := snapshot_roundtrip exampleScraper exampleScraper_valid
    ⟨d, h1, h2, h3 exampleFresh (by decide)⟩⟩


end Meshsearch
